import Mathlib

/-!
# Verification of the NPI_SlideManager record store and URL heuristics

A shallow embedding of the logic of `app.py`: URL identifier extraction
(`extract_google_slides_id`), the embeddability / title heuristics
(`is_embeddable_url`, `extract_title_from_url`), the JSON-backed record store
(`load_slides`, `save_slides`, the upload and delete operations) and the
change poller (`check_for_updates`).

Python strings are modelled as `List Char`.  The Python library helpers the
code calls (`str.split`, `in`, `re.search` on the two literal-prefix patterns,
`urlparse` — including the `ValueError` it raises on malformed bracketed
netlocs, per CPython 3.11 — `parse_qs`, `json.load`, `json.dump`) are
modelled explicitly below.  `json.load` is modelled in two layers: `jaccAll`
accepts exactly the documents `json.load` accepts (floats, `NaN`, `Infinity`
and lone-surrogate escapes included), and `parseJson` additionally produces
the value when it lies in the representable fragment (no floats, no
lone-surrogate strings; `JVal` numbers are unbounded integers); documents
accepted but unrepresentable are outside the value model, and theorems
touching them carry explicit hypotheses.  The NFKC netloc check of
`_checknetloc` concerns only non-ASCII netlocs and is likewise scoped out by
the `urlparseModelled` hypothesis.
-/

/-! ## Python string primitives -/

/-- Model of "the pattern list is a prefix of the second list", the matching
primitive underlying Python `in`, `str.split` and literal `re.search`. -/
def isPre : List Char → List Char → Bool
  | [], _ => true
  | _ :: _, [] => false
  | a :: s, b :: t => a == b && isPre s t

/-- First occurrence of `sep` in a list: the text before it and the text after
it, or `none` when `sep` does not occur.  Occurrences are searched left to
right, as Python's substring primitives do. -/
def findSub (sep : List Char) : List Char → Option (List Char × List Char)
  | [] => if isPre sep [] then some ([], []) else none
  | c :: rest =>
    if isPre sep (c :: rest) then some ([], (c :: rest).drop sep.length)
    else (findSub sep rest).map (fun p => (c :: p.1, p.2))

/-- Model of Python's substring test `sep in s`. -/
def pyIn (sep s : List Char) : Bool := (findSub sep s).isSome

/-- Fuel-driven worker for `pySplit`; `s.length + 1` fuel always suffices for a
non-empty separator. -/
def pySplitF : Nat → List Char → List Char → List (List Char)
  | 0, _, s => [s]
  | fuel + 1, sep, s =>
    match findSub sep s with
    | none => [s]
    | some (pre, post) => pre :: pySplitF fuel sep post

/-- Model of Python's `s.split(sep)` for a non-empty separator: split on the
non-overlapping occurrences of `sep`, left to right.  (Python raises on an
empty separator; the application never passes one.) -/
def pySplit (sep s : List Char) : List (List Char) := pySplitF (s.length + 1) sep s

theorem isPre_len {sep s : List Char} (h : isPre sep s = true) : sep.length ≤ s.length := by
  induction sep generalizing s with
  | nil => simp
  | cons a t ih =>
    cases s with
    | nil => simp [isPre] at h
    | cons b u =>
      simp only [isPre, Bool.and_eq_true] at h
      simp only [List.length_cons]
      exact Nat.succ_le_succ (ih h.2)

theorem findSub_some_len {sep s pre post : List Char} (hne : sep ≠ [])
    (h : findSub sep s = some (pre, post)) : post.length < s.length := by
  induction s generalizing pre post with
  | nil =>
    simp only [findSub] at h
    cases hp : isPre sep [] with
    | true =>
      cases sep with
      | nil => exact absurd rfl hne
      | cons a t => simp [isPre] at hp
    | false => simp [hp] at h
  | cons c rest ih =>
    simp only [findSub] at h
    by_cases hp : isPre sep (c :: rest) = true
    · simp only [hp, if_pos] at h
      have hlen := isPre_len hp
      cases h
      have hsl : sep.length ≠ 0 := by
        cases sep with
        | nil => exact absurd rfl hne
        | cons a t => simp
      simp only [List.length_drop]
      omega
    · rw [if_neg hp] at h
      rcases hmap : findSub sep rest with _ | ⟨p1, p2⟩
      · rw [hmap] at h; simp at h
      · rw [hmap] at h
        simp only [Option.map_some'] at h
        cases h
        have := ih hmap
        simp only [List.length_cons]
        omega

theorem pySplitF_congr {sep : List Char} (hne : sep ≠ []) :
    ∀ {f₁ : Nat} {s : List Char} {f₂ : Nat}, s.length < f₁ → s.length < f₂ →
      pySplitF f₁ sep s = pySplitF f₂ sep s := by
  intro f₁
  induction f₁ with
  | zero => intro s f₂ h1; omega
  | succ f ih =>
    intro s f₂ h1 h2
    cases f₂ with
    | zero => omega
    | succ f' =>
      simp only [pySplitF]
      rcases hfs : findSub sep s with _ | ⟨pre, post⟩
      · rfl
      · have hlt := findSub_some_len hne hfs
        exact congrArg (pre :: ·) (@ih post f' (by omega) (by omega))

/-- One-step unfolding of `pySplit` for a non-empty separator. -/
theorem pySplit_unfold {sep s : List Char} (hne : sep ≠ []) :
    pySplit sep s = match findSub sep s with
      | none => [s]
      | some (pre, post) => pre :: pySplit sep post := by
  show pySplitF (s.length + 1) sep s = _
  simp only [pySplitF]
  rcases hfs : findSub sep s with _ | ⟨pre, post⟩
  · rfl
  · have hlt := findSub_some_len hne hfs
    exact congrArg (pre :: ·) (pySplitF_congr hne (by omega) (by omega))

/-! ## Occurrence reasoning -/

theorem isPre_iff {a b : List Char} : isPre a b = true ↔ ∃ t, b = a ++ t := by
  induction a generalizing b with
  | nil => simp [isPre]
  | cons x s ih =>
    cases b with
    | nil =>
      simp only [isPre, List.cons_append]
      constructor
      · intro h; cases h
      · rintro ⟨t, ht⟩; cases ht
    | cons y u =>
      simp only [isPre, Bool.and_eq_true, beq_iff_eq, List.cons_append, ih]
      constructor
      · rintro ⟨rfl, t, rfl⟩; exact ⟨t, rfl⟩
      · rintro ⟨t, ht⟩
        injection ht with h1 h2
        exact ⟨h1.symm, t, h2⟩

theorem pyIn_cons {sep : List Char} {c : Char} {rest : List Char} :
    pyIn sep (c :: rest) = (isPre sep (c :: rest) || pyIn sep rest) := by
  unfold pyIn
  simp only [findSub]
  by_cases hp : isPre sep (c :: rest) = true
  · simp [hp]
  · simp only [Bool.not_eq_true] at hp
    simp [hp]

theorem pyIn_iff {sep s : List Char} : pyIn sep s = true ↔ ∃ x y, s = x ++ sep ++ y := by
  induction s with
  | nil =>
    constructor
    · intro h
      unfold pyIn findSub at h
      by_cases hp : isPre sep [] = true
      · rcases isPre_iff.mp hp with ⟨t, ht⟩
        have hsep : sep = [] := by
          cases sep with
          | nil => rfl
          | cons a u => simp at ht
        exact ⟨[], [], by simp [hsep]⟩
      · simp only [Bool.not_eq_true] at hp
        rw [hp] at h
        simp at h
    · rintro ⟨x, y, hxy⟩
      have h1 := List.append_eq_nil.mp hxy.symm
      have h2 := List.append_eq_nil.mp h1.1
      rw [h2.2]
      decide
  | cons c rest ih =>
    rw [pyIn_cons]
    simp only [Bool.or_eq_true, ih, isPre_iff]
    constructor
    · rintro (⟨t, ht⟩ | ⟨x, y, hxy⟩)
      · exact ⟨[], t, by simpa using ht⟩
      · exact ⟨c :: x, y, by simp [hxy]⟩
    · rintro ⟨x, y, hxy⟩
      cases x with
      | nil => exact Or.inl ⟨y, by simpa using hxy⟩
      | cons d x' =>
        injection hxy with h1 h2
        exact Or.inr ⟨x', y, h2⟩

theorem pyIn_trans {a b c : List Char} (hab : pyIn a b = true) (hbc : pyIn b c = true) :
    pyIn a c = true := by
  rcases pyIn_iff.mp hab with ⟨x, y, rfl⟩
  rcases pyIn_iff.mp hbc with ⟨u, v, rfl⟩
  exact pyIn_iff.mpr ⟨u ++ x, y ++ v, by simp⟩

theorem pyIn_eq_false_iff {sep s : List Char} :
    pyIn sep s = false ↔ ∀ t, t <:+ s → isPre sep t = false := by
  constructor
  · intro h t ht
    rcases ht with ⟨x, rfl⟩
    by_contra hp
    simp only [Bool.not_eq_false] at hp
    rcases isPre_iff.mp hp with ⟨y, rfl⟩
    have : pyIn sep (x ++ (sep ++ y)) = true := pyIn_iff.mpr ⟨x, y, by simp⟩
    rw [this] at h; cases h
  · intro h
    by_contra hin
    simp only [Bool.not_eq_false] at hin
    rcases pyIn_iff.mp hin with ⟨x, y, rfl⟩
    have hsuf : sep ++ y <:+ x ++ sep ++ y := ⟨x, by simp⟩
    have := h (sep ++ y) hsuf
    rw [isPre_iff.mpr ⟨y, rfl⟩] at this
    cases this

/-- A pattern only inspects the first `pat.length` characters. -/
theorem isPre_firstChars {pat : List Char} :
    ∀ {u : List Char}, pat.length ≤ u.length →
      ∀ (v w : List Char), isPre pat (u ++ v) = isPre pat (u ++ w) := by
  induction pat with
  | nil => intro u _ v w; rfl
  | cons a s ih =>
    intro u hu v w
    cases u with
    | nil => simp at hu
    | cons b u' =>
      have hu' : s.length ≤ u'.length := by
        simp only [List.length_cons] at hu
        omega
      show (a == b && isPre s (u' ++ v)) = (a == b && isPre s (u' ++ w))
      rw [ih hu' v w]

/-- Boolean check that no non-empty suffix of `p` can start an occurrence of
`sep`, however `p` is extended on the right. -/
def noStartIn (sep p : List Char) : Bool :=
  p.tails.all (fun t =>
    if sep.length ≤ t.length then !(isPre sep t)
    else match t, sep with
      | [], _ => true
      | _ :: _, [] => false
      | c :: _, a :: _ => !(a == c))

theorem noStartIn_spec {sep p : List Char} (hp : noStartIn sep p = true)
    {t : List Char} (ht : t <:+ p) (htne : t ≠ []) (s : List Char) :
    isPre sep (t ++ s) = false := by
  have hmem : t ∈ p.tails := (List.mem_tails t p).mpr ht
  have hall := (List.all_eq_true.mp hp) t hmem
  by_cases hl : sep.length ≤ t.length
  · simp only [hl, if_pos, Bool.not_eq_eq_eq_not, Bool.not_true] at hall
    calc isPre sep (t ++ s) = isPre sep (t ++ []) := isPre_firstChars hl s []
    _ = isPre sep t := by rw [List.append_nil]
    _ = false := hall
  · rw [if_neg hl] at hall
    cases t with
    | nil => exact absurd rfl htne
    | cons c t' =>
      cases sep with
      | nil => cases hall
      | cons a sep' =>
        simp only [Bool.not_eq_eq_eq_not, Bool.not_true] at hall
        simp [isPre, hall]

theorem noStartIn_cons {sep : List Char} {c : Char} {p : List Char}
    (h : noStartIn sep (c :: p) = true) : noStartIn sep p = true := by
  unfold noStartIn at h ⊢
  rw [List.tails_cons] at h
  simp only [List.all_cons, Bool.and_eq_true] at h
  exact h.2

/-- Scanning past a safe region: the first occurrence of `sep` in `p ++ s` is
the first occurrence in `s`, shifted by `p`. -/
theorem findSub_append {sep : List Char} :
    ∀ {p : List Char}, noStartIn sep p = true → ∀ (s : List Char),
      findSub sep (p ++ s) = (findSub sep s).map (fun q => (p ++ q.1, q.2)) := by
  intro p
  induction p with
  | nil =>
    intro _ s
    rcases h : findSub sep s with _ | ⟨a, b⟩ <;> simp [h]
  | cons c p' ih =>
    intro hp s
    have hfail : isPre sep (c :: (p' ++ s)) = false := by
      have := noStartIn_spec hp (List.suffix_refl _) (by simp) s
      simpa using this
    rw [List.cons_append]
    show (if isPre sep (c :: (p' ++ s)) = true
          then some ([], (c :: (p' ++ s)).drop sep.length)
          else (findSub sep (p' ++ s)).map (fun p => (c :: p.1, p.2)))
        = Option.map (fun q => ((c :: p') ++ q.1, q.2)) (findSub sep s)
    rw [hfail]
    simp only [Bool.false_eq_true, if_false]
    rw [ih (noStartIn_cons hp) s]
    rcases h : findSub sep s with _ | ⟨a, b⟩
    · simp
    · simp

theorem suffix_append_cases {t p s : List Char} (h : t <:+ p ++ s) :
    t <:+ s ∨ ∃ t', t' <:+ p ∧ t' ≠ [] ∧ t = t' ++ s := by
  induction p with
  | nil => exact Or.inl (by simpa using h)
  | cons c p' ih =>
    rw [List.cons_append, List.suffix_cons_iff] at h
    rcases h with rfl | h
    · exact Or.inr ⟨c :: p', List.suffix_refl _, by simp, by simp⟩
    · rcases ih h with h' | ⟨t', ht', hne, rfl⟩
      · exact Or.inl h'
      · exact Or.inr ⟨t', ht'.trans (List.suffix_cons c p'), hne, rfl⟩

/-- No occurrence of `sep` in `p ++ s` when `p` is a safe region and no suffix
of `s` starts with `sep`. -/
theorem pyIn_append_eq_false {sep p s : List Char}
    (hp : noStartIn sep p = true) (hs : ∀ t, t <:+ s → isPre sep t = false) :
    pyIn sep (p ++ s) = false := by
  rw [pyIn_eq_false_iff]
  intro t ht
  rcases suffix_append_cases ht with h | ⟨t', ht', hne, rfl⟩
  · exact hs t h
  · exact noStartIn_spec hp ht' hne s

/-! ## The URL identifier extractor -/

/-- Character class of the two regexes in `extract_google_slides_id`:
`[a-zA-Z0-9-_]`. -/
def isIdChar (c : Char) : Bool :=
  (decide ('a' ≤ c) && decide (c ≤ 'z')) || (decide ('A' ≤ c) && decide (c ≤ 'Z')) ||
    (decide ('0' ≤ c) && decide (c ≤ '9')) || c == '-' || c == '_'

/-- Model of `re.search(lit + r'([a-zA-Z0-9-_]+)', s)` returning group 1: the
leftmost position where the literal is followed by at least one identifier
character; the group is the maximal run of identifier characters there. -/
def reSearchLitId (lit : List Char) : List Char → Option (List Char)
  | [] => none
  | c :: rest =>
    if isPre lit (c :: rest) && isIdChar (((c :: rest).drop lit.length).headD ' ')
    then some (((c :: rest).drop lit.length).takeWhile isIdChar)
    else reSearchLitId lit rest

def hexDigVal (c : Char) : Option Nat :=
  if decide ('0' ≤ c) && decide (c ≤ '9') then some (c.toNat - 48)
  else if decide ('a' ≤ c) && decide (c ≤ 'f') then some (c.toNat - 87)
  else if decide ('A' ≤ c) && decide (c ≤ 'F') then some (c.toNat - 55)
  else none

def isHexDig (c : Char) : Bool := (hexDigVal c).isSome

def isAsciiDigit (c : Char) : Bool := decide ('0' ≤ c) && decide (c ≤ '9')

/-- The set `urlsplit` strips from the left of the URL (C0 controls and the
space, `_WHATWG_C0_CONTROL_OR_SPACE`). -/
def isC0OrSpace (c : Char) : Bool := decide (c.toNat ≤ 32)

/-- Tab, carriage return and newline, removed everywhere by `urlsplit`
(`_UNSAFE_URL_BYTES_TO_REMOVE`). -/
def isUnsafeUrlByte (c : Char) : Bool :=
  c == Char.ofNat 9 || c == Char.ofNat 13 || c == Char.ofNat 10

/-- The normalisation `urlsplit` applies before any parsing (CPython 3.11):
left-strip C0 controls and spaces, then remove every tab, CR and LF. -/
def normUrl (url : List Char) : List Char :=
  (url.dropWhile isC0OrSpace).filter (fun c => !(isUnsafeUrlByte c))

def isAsciiAlpha (c : Char) : Bool :=
  (decide ('a' ≤ c) && decide (c ≤ 'z')) || (decide ('A' ≤ c) && decide (c ≤ 'Z'))

/-- Scheme characters of `urllib.parse` (letters, digits, `+`, `-`, `.`). -/
def isSchemeChar (c : Char) : Bool :=
  isAsciiAlpha c || (decide ('0' ≤ c) && decide (c ≤ '9')) || c == '+' || c == '-' || c == '.'

/-- The scheme-stripping step of `urlsplit` on a normalised URL: when a `:`
exists, the text before the first one is non-empty, starts with an ASCII
letter and holds only scheme characters, the scheme and the colon are
removed. -/
def stripScheme (url : List Char) : List Char :=
  if url.takeWhile (fun c => !(c == ':')) = url then url
  else if (url.takeWhile (fun c => !(c == ':'))).all isSchemeChar
          && isAsciiAlpha ((url.takeWhile (fun c => !(c == ':'))).headD ' ') then
    (url.dropWhile (fun c => !(c == ':'))).tail
  else url

/-- Model of `urlparse(url).netloc` (CPython 3.11 `urlsplit`): normalise,
strip the scheme, and when the remainder starts with `//` take the text up to
the next `/`, `?` or `#`; otherwise the netloc is empty. -/
def pyNetloc (url : List Char) : List Char :=
  if isPre ['/', '/'] (stripScheme (normUrl url)) then
    ((stripScheme (normUrl url)).drop 2).takeWhile
      (fun c => !(c == '/' || c == '?' || c == '#'))
  else []

/-- Model of `urlparse(url).query`: in the part after the netloc, the text
after the first `?` of the part before the first `#`.  Neither a scheme nor a
netloc can hold `?` or `#`, so the split is taken over the whole normalised
URL. -/
def pyQuery (url : List Char) : List Char :=
  (((normUrl url).takeWhile (fun c => !(c == '#'))).dropWhile (fun c => !(c == '?'))).tail

/-- `ipaddress._parse_octet` as a predicate: 1-3 ASCII digits, no leading
zero (except `0` itself), value at most 255. -/
def octetOk (o : List Char) : Bool :=
  decide (o ≠ []) && o.all isAsciiDigit && decide (o.length ≤ 3) &&
    (o == ['0'] || !((o.headD '0') == '0')) &&
    decide (o.foldl (fun a c => 10 * a + (c.toNat - 48)) 0 ≤ 255)

/-- `ipaddress.IPv4Address` string validity: exactly four `.`-separated valid
octets. -/
def ipv4Ok (s : List Char) : Bool :=
  decide (s ≠ []) &&
    (let os := pySplit ['.'] s
     decide (os.length = 4) && os.all octetOk)

/-- `ipaddress._BaseV6._parse_hextet` as a predicate: 1-4 hex digits. -/
def hextetOk (p : List Char) : Bool :=
  decide (p ≠ []) && decide (p.length ≤ 4) && p.all isHexDig

/-- The structural checks of `ipaddress._BaseV6._ip_int_from_string` on the
`:`-split parts (after any IPv4 suffix was replaced by two hextets): at most
9 parts, at most one empty interior part (the `::`), empty endpoints only
beside the `::`, at least one skipped group, and 1-4 hex digits in every part
that is actually parsed. -/
def ipv6PartsOk (ps : List (List Char)) : Bool :=
  decide (ps.length ≤ 9) &&
    (let n := ps.length
     let interior := (ps.drop 1).take (n - 2)
     let k := interior.countP (fun p => p.isEmpty)
     if 1 < k then false
     else if k = 1 then
       let s := 1 + interior.findIdx (fun p => p.isEmpty)
       let headEmpty := (ps.headD ['x']).isEmpty
       let lastEmpty := (ps.getLastD ['x']).isEmpty
       (if headEmpty then decide (s = 1) else true) &&
       (if lastEmpty then decide (n - s - 1 = 1) else true) &&
       (let hi := if headEmpty then s - 1 else s
        let lo := if lastEmpty then n - s - 2 else n - s - 1
        decide (hi + lo ≤ 7) && (ps.take hi).all hextetOk && (ps.drop (n - lo)).all hextetOk)
     else
       decide (n = 8) && !(ps.headD ['x']).isEmpty && !(ps.getLastD ['x']).isEmpty &&
         ps.all hextetOk)

/-- `ipaddress._BaseV6._ip_int_from_string` validity: non-empty, at least 3
`:`-parts, an optional trailing IPv4 suffix, and the part-structure checks.
(The two hextets an IPv4 suffix is replaced by are always valid, so `0`
placeholders stand for them.) -/
def ipv6AddrOk (addr : List Char) : Bool :=
  decide (addr ≠ []) &&
    (let ps := pySplit [':'] addr
     decide (3 ≤ ps.length) &&
       (let last := ps.getLastD []
        if pyIn ['.'] last then
          ipv4Ok last && ipv6PartsOk (ps.dropLast ++ [['0'], ['0']])
        else ipv6PartsOk ps))

/-- `ipaddress.IPv6Address` string validity, with the RFC 4007 scope-id split
(`addr%scope`, scope non-empty and `%`-free). -/
def ipv6StrOk (h : List Char) : Bool :=
  if pyIn ['%'] h then
    let addr := h.takeWhile (fun c => !(c == '%'))
    let scope := (h.dropWhile (fun c => !(c == '%'))).tail
    decide (scope ≠ []) && !(pyIn ['%'] scope) && ipv6AddrOk addr
  else ipv6AddrOk h

/-- The regex `\Av[a-fA-F0-9]+\..+\Z` of `_check_bracketed_host` (IPvFuture):
`v`, a non-empty hex run, a dot, at least one more character. -/
def vFutureOk (h : List Char) : Bool :=
  match h with
  | 'v' :: rest =>
    decide (rest.takeWhile isHexDig ≠ []) &&
      ((rest.dropWhile isHexDig).headD ' ' == '.') &&
      decide (2 ≤ (rest.dropWhile isHexDig).length)
  | _ => false

/-- `urllib.parse._check_bracketed_host` (CPython 3.11) as a predicate: a
host starting `v` must match the IPvFuture regex; any other host must be a
valid IPv6 address (`ip_address` tries IPv4 first, but a valid IPv4 host in
brackets raises, and an IPv4-valid string is never IPv6-valid). -/
def bracketedHostOk (h : List Char) : Bool :=
  if h.headD ' ' == 'v' then vFutureOk h
  else !(ipv4Ok h) && ipv6StrOk h

/-- Whether `urlparse(url)` raises `ValueError` (CPython 3.11): mismatched
`[`/`]` in the netloc, or a bracketed host that is neither a valid IPv6
address nor an IPvFuture literal.  Exact for URLs whose netloc is ASCII
([urlparseModelled]); the NFKC check `_checknetloc` applies only to non-ASCII
netlocs and is outside the model. -/
def urlparseRaises (url : List Char) : Bool :=
  let nl := pyNetloc url
  if !(pyIn ['['] nl == pyIn [']'] nl) then true
  else if pyIn ['['] nl then
    !(bracketedHostOk (((nl.dropWhile (fun c => !(c == '['))).tail).takeWhile
        (fun c => !(c == ']'))))
  else false

/-- The URLs on which the `urlparse` exception model is exact: those whose
netloc is pure ASCII, so that the NFKC normalisation check of `_checknetloc`
cannot fire. -/
def urlparseModelled (url : List Char) : Bool :=
  (pyNetloc url).all (fun c => decide (c.toNat < 128))

/-- Fuel-driven worker for `pyUnquote`; every step consumes at least one
character, so fuel equal to the input length always suffices. -/
def pyUnquoteF : Nat → List Char → List Char
  | 0, _ => []
  | _ + 1, [] => []
  | f + 1, c :: r =>
    if c == '%' then
      match r with
      | h1 :: h2 :: r2 =>
        match hexDigVal h1, hexDigVal h2 with
        | some a, some b => Char.ofNat (16 * a + b) :: pyUnquoteF f r2
        | _, _ => '%' :: pyUnquoteF f r
      | _ => '%' :: pyUnquoteF f r
    else c :: pyUnquoteF f r

/-- Model of `urllib.parse.unquote` on the ASCII fragment: a `%` followed by
two hex digits decodes to that byte; an invalid escape is kept verbatim.
(The real function decodes consecutive high bytes as UTF-8; the application
only ever extracts ASCII identifiers, so single-byte decoding is used.) -/
def pyUnquote (s : List Char) : List Char := pyUnquoteF s.length s

def plusToSpace (s : List Char) : List Char :=
  s.map (fun c => if c == '+' then ' ' else c)

def pyUnquotePlus (s : List Char) : List Char := pyUnquote (plusToSpace s)

/-- Processing of one `name=value` field of a query string, with the default
`parse_qsl` arguments: a field that is empty, has no `=`, or has an empty
value is dropped (`keep_blank_values=False`); name and value are
percent-plus-decoded. -/
def qslField (nv : List Char) : Option (List Char × List Char) :=
  if nv = [] then none
  else if nv.takeWhile (fun c => !(c == '=')) = nv then none
  else if (nv.dropWhile (fun c => !(c == '='))).tail = [] then none
  else some (pyUnquotePlus (nv.takeWhile (fun c => !(c == '='))),
             pyUnquotePlus ((nv.dropWhile (fun c => !(c == '='))).tail))

/-- Model of `urllib.parse.parse_qsl(qs)` with the default arguments: split on
`&` and process each field. -/
def parseQsl (qs : List Char) : List (List Char × List Char) :=
  (pySplit ['&'] qs).filterMap qslField

/-- Model of `parse_qs(parsed.query)[key][0]` guarded by `key in parse_qs(...)`:
the first value bound to `key` in the query string, if any. -/
def qsFirstValue (key url : List Char) : Option (List Char) :=
  ((parseQsl (pyQuery url)).find? (fun p => p.1 == key)).map Prod.snd

/-- Model of `extract_google_slides_id` (app.py lines 49-72).  The four guarded
pattern attempts are translated branch for branch; the only statement of the
`try` body that can raise is the `urlparse` call of the third attempt, and
that `ValueError` lands in the bare `except`, which returns the raw URL. -/
def extract_google_slides_id (url : List Char) : List Char :=
  if pyIn "/d/".data url then
    (pySplit "/".data ((pySplit "/d/".data url).getD 1 [])).getD 0 []
  else
    match (if pyIn "docs.google.com/presentation/d/".data url
           then reSearchLitId "docs.google.com/presentation/d/".data url else none) with
    | some g => g
    | none =>
      if pyIn "drive.google.com".data url then
        if urlparseRaises url then url
        else
          match qsFirstValue "id".data url with
          | some v => v
          | none =>
            match (if pyIn "presentation/d/".data url
                   then reSearchLitId "presentation/d/".data url else none) with
            | some g => g
            | none => url
      else
        match (if pyIn "presentation/d/".data url
               then reSearchLitId "presentation/d/".data url else none) with
        | some g => g
        | none => url

/-- Pattern attempt (1): the substring between the first `/d/` and the next
`/` (lines 52-54). -/
def attempt1 (url : List Char) : Option (List Char) :=
  if pyIn "/d/".data url then
    some ((pySplit "/".data ((pySplit "/d/".data url).getD 1 [])).getD 0 [])
  else none

/-- Pattern attempt (2): the regex on `docs.google.com/presentation/d/`
(lines 55-59). -/
def attempt2 (url : List Char) : Option (List Char) :=
  reSearchLitId "docs.google.com/presentation/d/".data url

/-- Pattern attempt (3): the `id` query parameter of a `drive.google.com` link
(lines 60-64); an attempt whose `urlparse` call raises matches nothing. -/
def attempt3 (url : List Char) : Option (List Char) :=
  if pyIn "drive.google.com".data url then
    if urlparseRaises url then none else qsFirstValue "id".data url
  else none

/-- Pattern attempt (4): the regex on `presentation/d/` (lines 65-69). -/
def attempt4 (url : List Char) : Option (List Char) :=
  reSearchLitId "presentation/d/".data url

theorem reSearchLitId_none {lit url : List Char} (h : pyIn lit url = false) :
    reSearchLitId lit url = none := by
  induction url with
  | nil => rfl
  | cons c rest ih =>
    rw [pyIn_cons] at h
    simp only [Bool.or_eq_false_iff] at h
    unfold reSearchLitId
    rw [h.1]
    simpa using ih h.2

example : extract_google_slides_id "https://docs.google.com/presentation/d/abC1-x_9/edit?usp=sharing".data = "abC1-x_9".data := by decide

example : extract_google_slides_id "https://drive.google.com/open?id=XyZ_42".data = "XyZ_42".data := by decide

example : extract_google_slides_id "https://example.com/talk".data = "https://example.com/talk".data := by decide

theorem guard_reSearch (lit url : List Char) :
    (if pyIn lit url then reSearchLitId lit url else none) = reSearchLitId lit url := by
  by_cases h : pyIn lit url = true
  · rw [if_pos h]
  · simp only [Bool.not_eq_true] at h
    rw [if_neg (by simp [h]), reSearchLitId_none h]

/-- C1.  On every URL the exception model covers, `extract_google_slides_id`
returns the result of the first of the four pattern attempts that matches —
the `/d/` substring, the `docs.google.com/presentation/d/` regex, the `id`
query parameter of a `drive.google.com` link (an attempt whose `urlparse`
raises matches nothing), the `presentation/d/` regex, in that order — and the
raw URL unchanged when no attempt matches. -/
theorem c1_ordered_attempts (url : List Char) (hm : urlparseModelled url = true) :
    extract_google_slides_id url =
      (attempt1 url <|> attempt2 url <|> attempt3 url <|> attempt4 url).getD url := by
  clear hm
  unfold extract_google_slides_id attempt1 attempt2 attempt3 attempt4
  rw [guard_reSearch, guard_reSearch]
  by_cases h1 : pyIn "/d/".data url = true
  · simp [h1]
  · simp only [Bool.not_eq_true] at h1
    have h4 : reSearchLitId "presentation/d/".data url = none := by
      apply reSearchLitId_none
      by_contra hc
      simp only [Bool.not_eq_false] at hc
      have := pyIn_trans (a := "/d/".data) (by decide) hc
      rw [this] at h1; cases h1
    simp only [h1, Bool.false_eq_true, if_false]
    rcases h2 : reSearchLitId "docs.google.com/presentation/d/".data url with _ | g
    · by_cases hd : pyIn "drive.google.com".data url = true
      · rw [if_pos hd, if_pos hd]
        by_cases hr : urlparseRaises url = true
        · rw [if_pos hr, if_pos hr]
          simp [h4]
        · simp only [Bool.not_eq_true] at hr
          rw [if_neg (by simp [hr]), if_neg (by simp [hr])]
          rcases h3 : qsFirstValue "id".data url with _ | v
          · simp [h4]
          · simp
      · simp only [Bool.not_eq_true] at hd
        rw [if_neg (by simp [hd]), if_neg (by simp [hd])]
        simp [h4]
    · simp

/-- C1 witness at a concrete URL whose netloc is ASCII. -/
theorem c1_ordered_attempts_witness :
    urlparseModelled "https://drive.google.com/open?id=XyZ".data = true ∧
    extract_google_slides_id "https://drive.google.com/open?id=XyZ".data =
      (attempt1 "https://drive.google.com/open?id=XyZ".data <|>
        attempt2 "https://drive.google.com/open?id=XyZ".data <|>
        attempt3 "https://drive.google.com/open?id=XyZ".data <|>
        attempt4 "https://drive.google.com/open?id=XyZ".data).getD
          "https://drive.google.com/open?id=XyZ".data :=
  ⟨by decide, c1_ordered_attempts "https://drive.google.com/open?id=XyZ".data (by decide)⟩

/-- Simplified extractor, following the words of the original claim: only the
`/d/` substring branch, the (total) `drive.google.com` id-parameter branch,
and the unchanged-URL fallback. -/
def extractSimplified (url : List Char) : List Char :=
  if pyIn "/d/".data url then
    (pySplit "/".data ((pySplit "/d/".data url).getD 1 [])).getD 0 []
  else
    match (if pyIn "drive.google.com".data url
           then qsFirstValue "id".data url else none) with
    | some v => v
    | none => url

/-- Simplified extractor carrying the drive branch's exception fallback: the
`/d/` branch, the `drive.google.com` id-parameter branch in which a raising
`urlparse` falls back to the raw URL, and the unchanged-URL fallback. -/
def extractSimplifiedExc (url : List Char) : List Char :=
  if pyIn "/d/".data url then
    (pySplit "/".data ((pySplit "/d/".data url).getD 1 [])).getD 0 []
  else if pyIn "drive.google.com".data url then
    if urlparseRaises url then url
    else
      match qsFirstValue "id".data url with
      | some v => v
      | none => url
  else url

/-- C9 counterexample: at a bracket-netloc drive URL, `urlparse` raises and
the program returns the raw URL through the `except`, while the simplified
version as the claim words it — without the exception fallback — extracts
`abc`; the two are not extensionally equal. -/
theorem c9_counterexample :
    extract_google_slides_id "http://[x/drive.google.com?id=abc".data
      = "http://[x/drive.google.com?id=abc".data ∧
    extractSimplified "http://[x/drive.google.com?id=abc".data = "abc".data ∧
    extract_google_slides_id "http://[x/drive.google.com?id=abc".data
      ≠ extractSimplified "http://[x/drive.google.com?id=abc".data := by decide

/-- C9 as amended.  The second and fourth pattern attempts of
`extract_google_slides_id` are unreachable — any URL they could match
contains `/d/` and is taken by the first attempt — so on every URL the
exception model covers the function is extensionally equal to the simplified
version that keeps the `/d/` branch, the `drive.google.com` id-parameter
branch together with its exception fallback to the raw URL, and the
unchanged-URL fallback. -/
theorem c9_amended (url : List Char) (hm : urlparseModelled url = true) :
    extract_google_slides_id url = extractSimplifiedExc url := by
  clear hm
  unfold extract_google_slides_id extractSimplifiedExc
  by_cases h1 : pyIn "/d/".data url = true
  · simp [h1]
  · simp only [Bool.not_eq_true] at h1
    have h2 : pyIn "docs.google.com/presentation/d/".data url = false := by
      by_contra hc
      simp only [Bool.not_eq_false] at hc
      have := pyIn_trans (a := "/d/".data) (by decide) hc
      rw [this] at h1; cases h1
    have h4 : pyIn "presentation/d/".data url = false := by
      by_contra hc
      simp only [Bool.not_eq_false] at hc
      have := pyIn_trans (a := "/d/".data) (by decide) hc
      rw [this] at h1; cases h1
    simp only [h1, h2, h4, Bool.false_eq_true, if_false]

/-- C9 amended-claim witness at a concrete raising URL. -/
theorem c9_amended_witness :
    urlparseModelled "http://[z/drive.google.com?id=pq".data = true ∧
    extract_google_slides_id "http://[z/drive.google.com?id=pq".data
      = extractSimplifiedExc "http://[z/drive.google.com?id=pq".data :=
  ⟨by decide, c9_amended "http://[z/drive.google.com?id=pq".data (by decide)⟩

/-! ## Extraction on well-formed Google URLs (C3) -/

theorem idChar_beq_false {c x : Char} (hc : isIdChar c = true) (hx : isIdChar x = false) :
    (c == x) = false ∧ (x == c) = false := by
  constructor
  · exact beq_eq_false_iff_ne.mpr (fun he => by rw [← he] at hx; rw [hc] at hx; cases hx)
  · exact beq_eq_false_iff_ne.mpr (fun he => by rw [he] at hx; rw [hc] at hx; cases hx)

theorem isPre_false_of_head_ne {a : Char} {sep' : List Char} {c : Char} {y : List Char}
    (h : (a == c) = false) : isPre (a :: sep') (c :: y) = false := by
  simp [isPre, h]

/-- No suffix of a list of identifier characters starts with a pattern whose
head is not an identifier character. -/
theorem noPre_suffix_idlist {a : Char} (sep' : List Char) (ha : isIdChar a = false)
    {ID : List Char} (hid : ID.all isIdChar = true) :
    ∀ t, t <:+ ID → isPre (a :: sep') t = false := by
  intro t ht
  cases t with
  | nil => rfl
  | cons c rest =>
    have hc : isIdChar c = true :=
      List.all_eq_true.mp hid c (ht.subset (by simp))
    exact isPre_false_of_head_ne (idChar_beq_false hc ha).2

theorem suffix_idlist_append {a : Char} (sep' : List Char) (ha : isIdChar a = false)
    {ID X : List Char} (hid : ID.all isIdChar = true)
    (hX : ∀ t, t <:+ X → isPre (a :: sep') t = false) :
    ∀ t, t <:+ ID ++ X → isPre (a :: sep') t = false := by
  intro t ht
  rcases suffix_append_cases ht with h | ⟨t', ht', hne, rfl⟩
  · exact hX t h
  · cases t' with
    | nil => exact absurd rfl hne
    | cons c rest =>
      have hc : isIdChar c = true :=
        List.all_eq_true.mp hid c (ht'.subset (by simp))
      exact isPre_false_of_head_ne (idChar_beq_false hc ha).2

theorem findSub_eq_none {sep s : List Char} (h : pyIn sep s = false) :
    findSub sep s = none := by
  unfold pyIn at h
  rcases hf : findSub sep s with _ | p
  · rfl
  · rw [hf] at h; cases h

theorem takeWhile_append_left {f : Char → Bool} {p : List Char}
    (h : ∀ c ∈ p, f c = true) (s : List Char) :
    (p ++ s).takeWhile f = p ++ s.takeWhile f := by
  induction p with
  | nil => rfl
  | cons c p' ih =>
    have hc : f c = true := h c (by simp)
    simp only [List.cons_append, List.takeWhile_cons, hc, if_true]
    rw [ih (fun d hd => h d (by simp [hd]))]

theorem takeWhile_all_eq {f : Char → Bool} {l : List Char}
    (h : ∀ c ∈ l, f c = true) : l.takeWhile f = l := by
  induction l with
  | nil => rfl
  | cons c l' ih =>
    have hc : f c = true := h c (by simp)
    simp only [List.takeWhile_cons, hc, if_true]
    rw [ih (fun d hd => h d (by simp [hd]))]

theorem dropWhile_append_left {f : Char → Bool} {p : List Char}
    (h : p.dropWhile f ≠ []) (s : List Char) :
    (p ++ s).dropWhile f = p.dropWhile f ++ s := by
  induction p with
  | nil => exact absurd rfl h
  | cons c p' ih =>
    by_cases hc : f c = true
    · simp only [List.dropWhile_cons, hc, if_true] at h ⊢
      simp only [List.cons_append, List.dropWhile_cons, hc, if_true]
      exact ih h
    · simp only [Bool.not_eq_true] at hc
      simp only [List.cons_append, List.dropWhile_cons, hc]
      simp

/-- The first occurrence of a single character after a run that avoids it. -/
theorem findSub_single {ch : Char} {a : List Char}
    (h : ∀ c ∈ a, (ch == c) = false) (b : List Char) :
    findSub [ch] (a ++ ch :: b) = some (a, b) := by
  induction a with
  | nil =>
    show findSub [ch] (ch :: b) = some ([], b)
    have : isPre [ch] (ch :: b) = true := by simp [isPre]
    unfold findSub
    rw [this]
    simp
  | cons c a' ih =>
    have hc : (ch == c) = false := h c (by simp)
    have hpre : isPre [ch] (c :: (a' ++ ch :: b)) = false := by simp [isPre, hc]
    show findSub [ch] (c :: (a' ++ ch :: b)) = some (c :: a', b)
    unfold findSub
    rw [hpre]
    simp only [Bool.false_eq_true, if_false]
    rw [ih (fun d hd => h d (by simp [hd]))]
    rfl

theorem plusToSpace_id {s : List Char} (h : ∀ c ∈ s, (c == '+') = false) :
    plusToSpace s = s := by
  unfold plusToSpace
  induction s with
  | nil => rfl
  | cons c r ih =>
    have hc := h c (by simp)
    simp only [List.map_cons, hc, Bool.false_eq_true, if_false, List.cons.injEq, true_and]
    exact ih (fun d hd => h d (by simp [hd]))

theorem pyUnquoteF_id {f : Nat} {s : List Char} (hf : s.length ≤ f)
    (h : ∀ c ∈ s, (c == '%') = false) : pyUnquoteF f s = s := by
  induction f generalizing s with
  | zero =>
    cases s with
    | nil => rfl
    | cons c r => simp at hf
  | succ f' ih =>
    cases s with
    | nil => rfl
    | cons c r =>
      have hc := h c (by simp)
      simp only [pyUnquoteF, hc, Bool.false_eq_true, if_false, List.cons.injEq, true_and]
      exact ih (by simpa using Nat.le_of_succ_le_succ (by simpa using hf))
        (fun d hd => h d (by simp [hd]))

theorem pyUnquotePlus_idchars {s : List Char} (h : s.all isIdChar = true) :
    pyUnquotePlus s = s := by
  unfold pyUnquotePlus pyUnquote
  rw [plusToSpace_id (fun c hc =>
    (idChar_beq_false (List.all_eq_true.mp h c hc) (by decide)).1)]
  exact pyUnquoteF_id (Nat.le_refl _) (fun c hc =>
    (idChar_beq_false (List.all_eq_true.mp h c hc) (by decide)).1)

/-- C3.  A Google Slides URL `.../presentation/d/<ID>/edit` and a Drive URL
`https://drive.google.com/open?id=<ID>` both extract to exactly `<ID>`, for
every non-empty identifier drawn from the `[a-zA-Z0-9-_]` alphabet these URL
shapes allow. -/
theorem c3_wellformed_urls (ID : List Char) (hne : ID ≠ [])
    (hid : ID.all isIdChar = true) :
    extract_google_slides_id
        ("https://docs.google.com/presentation/d/".data ++ ID ++ "/edit".data) = ID ∧
    extract_google_slides_id
        ("https://drive.google.com/open?id=".data ++ ID) = ID := by
  constructor
  · have hurl : "https://docs.google.com/presentation/d/".data ++ ID ++ "/edit".data
        = "https://docs.google.com/presentation".data ++ ("/d/".data ++ (ID ++ "/edit".data)) := by
      have : "https://docs.google.com/presentation/d/".data
          = "https://docs.google.com/presentation".data ++ "/d/".data := by decide
      rw [this]
      simp
    rw [hurl]
    have hfs : findSub "/d/".data
        ("https://docs.google.com/presentation".data ++ ("/d/".data ++ (ID ++ "/edit".data)))
        = some ("https://docs.google.com/presentation".data, ID ++ "/edit".data) := by
      rw [findSub_append (by decide)]
      have hhere : findSub "/d/".data ("/d/".data ++ (ID ++ "/edit".data))
          = some ([], ID ++ "/edit".data) := rfl
      rw [hhere]
      simp
    have hin : pyIn "/d/".data
        ("https://docs.google.com/presentation".data ++ ("/d/".data ++ (ID ++ "/edit".data))) = true := by
      unfold pyIn
      rw [hfs]
      rfl
    unfold extract_google_slides_id
    rw [if_pos hin]
    have hrest : findSub "/d/".data (ID ++ "/edit".data) = none := by
      apply findSub_eq_none
      rw [pyIn_eq_false_iff]
      exact suffix_idlist_append _ (by decide) hid
        (by
          intro t ht
          have hmem := (List.mem_tails t ("/edit".data)).mpr ht
          clear ht
          revert t
          decide)
    have hsplit1 : pySplit "/d/".data
        ("https://docs.google.com/presentation".data ++ ("/d/".data ++ (ID ++ "/edit".data)))
        = ["https://docs.google.com/presentation".data, ID ++ "/edit".data] := by
      rw [pySplit_unfold (show ("/d/".data : List Char) ≠ [] by decide), hfs]
      show "https://docs.google.com/presentation".data
          :: pySplit "/d/".data (ID ++ "/edit".data) = _
      rw [pySplit_unfold (show ("/d/".data : List Char) ≠ [] by decide), hrest]
    rw [hsplit1]
    have hsplit2 : pySplit "/".data (ID ++ "/edit".data)
        = ID :: pySplit "/".data "edit".data := by
      have hed : ID ++ "/edit".data = ID ++ '/' :: "edit".data := rfl
      rw [hed]
      rw [pySplit_unfold (show ("/".data : List Char) ≠ [] by decide)]
      have hfsingle := @findSub_single '/' ID
        (fun c hc =>
          (idChar_beq_false (List.all_eq_true.mp hid c hc) (x := '/') (by decide)).2)
        "edit".data
      rw [show ("/".data : List Char) = ['/'] from rfl, hfsingle]
    simp only [List.getD_cons_succ, List.getD_cons_zero]
    rw [hsplit2]
    rfl
  · have hnod : pyIn "/d/".data ("https://drive.google.com/open?id=".data ++ ID) = false := by
      apply pyIn_append_eq_false (by decide)
      exact noPre_suffix_idlist _ (by decide) hid
    have hnodocs : pyIn "docs.google.com/presentation/d/".data
        ("https://drive.google.com/open?id=".data ++ ID) = false := by
      by_contra hc
      simp only [Bool.not_eq_false] at hc
      have := pyIn_trans (a := "/d/".data) (by decide) hc
      rw [this] at hnod; cases hnod
    have hdrive : pyIn "drive.google.com".data
        ("https://drive.google.com/open?id=".data ++ ID) = true := by
      apply pyIn_iff.mpr
      refine ⟨"https://".data, "/open?id=".data ++ ID, ?_⟩
      have : "https://drive.google.com/open?id=".data
          = ("https://".data ++ "drive.google.com".data) ++ "/open?id=".data := by decide
      rw [this]
      simp
    have hfilterID : ID.filter (fun c => !(isUnsafeUrlByte c)) = ID :=
      List.filter_eq_self.mpr (fun c hc => by
        have hcid := List.all_eq_true.mp hid c hc
        unfold isUnsafeUrlByte
        simp [(idChar_beq_false hcid (x := Char.ofNat 9) (by decide)).1,
              (idChar_beq_false hcid (x := Char.ofNat 13) (by decide)).1,
              (idChar_beq_false hcid (x := Char.ofNat 10) (by decide)).1])
    have hnorm : normUrl ("https://drive.google.com/open?id=".data ++ ID)
        = "https://drive.google.com/open?id=".data ++ ID := by
      unfold normUrl
      rw [show ("https://drive.google.com/open?id=".data ++ ID).dropWhile isC0OrSpace
          = "https://drive.google.com/open?id=".data ++ ID from rfl]
      rw [List.filter_append, hfilterID]
      rw [show "https://drive.google.com/open?id=".data.filter (fun c => !(isUnsafeUrlByte c))
          = "https://drive.google.com/open?id=".data by decide]
    have hstrip : stripScheme ("https://drive.google.com/open?id=".data ++ ID)
        = "//drive.google.com/open?id=".data ++ ID := by
      unfold stripScheme
      rw [show ("https://drive.google.com/open?id=".data ++ ID).takeWhile (fun c => !(c == ':'))
          = "https".data from rfl]
      have hne1 : ("https".data : List Char)
          ≠ "https://drive.google.com/open?id=".data ++ ID := by
        intro h
        have hlen := congrArg List.length h
        simp at hlen
      rw [if_neg hne1]
      rw [if_pos (by decide)]
      rw [show (("https://drive.google.com/open?id=".data ++ ID).dropWhile
            (fun c => !(c == ':'))).tail = "//drive.google.com/open?id=".data ++ ID from rfl]
    have hnet : pyNetloc ("https://drive.google.com/open?id=".data ++ ID)
        = "drive.google.com".data := by
      unfold pyNetloc
      rw [hnorm, hstrip]
      rw [if_pos (show isPre ['/', '/']
            ("//drive.google.com/open?id=".data ++ ID) = true from rfl)]
      rw [show (("//drive.google.com/open?id=".data ++ ID).drop 2).takeWhile
            (fun c => !(c == '/' || c == '?' || c == '#')) = "drive.google.com".data from rfl]
    have hnor : urlparseRaises ("https://drive.google.com/open?id=".data ++ ID) = false := by
      unfold urlparseRaises
      rw [hnet]
      decide
    have hquery : pyQuery ("https://drive.google.com/open?id=".data ++ ID)
        = "id=".data ++ ID := by
      unfold pyQuery
      rw [hnorm]
      rw [takeWhile_append_left (by decide) ID]
      rw [takeWhile_all_eq (f := fun c => !(c == '#')) (l := ID) (fun c hc => by
        simp [(idChar_beq_false (List.all_eq_true.mp hid c hc) (x := '#') (by decide)).1])]
      rw [dropWhile_append_left (by decide) ID]
      rfl
    have hfield : qslField ("id=".data ++ ID) = some (['i', 'd'], ID) := by
      unfold qslField
      have hcons : "id=".data ++ ID = 'i' :: 'd' :: '=' :: ID := rfl
      rw [hcons]
      rw [if_neg (by simp)]
      have hname : ('i' :: 'd' :: '=' :: ID).takeWhile (fun c => !(c == '=')) = ['i', 'd'] := rfl
      have hval : (('i' :: 'd' :: '=' :: ID).dropWhile (fun c => !(c == '='))).tail = ID := rfl
      rw [hname, hval]
      rw [if_neg (by simp)]
      rw [if_neg hne]
      rw [pyUnquotePlus_idchars hid]
      rfl
    have hqsl : parseQsl ("id=".data ++ ID) = [(['i', 'd'], ID)] := by
      unfold parseQsl
      have hsplit : pySplit ['&'] ("id=".data ++ ID) = ["id=".data ++ ID] := by
        rw [pySplit_unfold (show (['&'] : List Char) ≠ [] by decide)]
        rw [findSub_eq_none]
        apply pyIn_append_eq_false (p := "id=".data)
        · decide
        · exact noPre_suffix_idlist (a := '&') ([]) (by decide) hid
      rw [hsplit]
      simp only [List.filterMap_cons, List.filterMap_nil, hfield]
    unfold extract_google_slides_id
    rw [if_neg (by rw [hnod]; simp)]
    rw [if_neg (by rw [hnodocs]; simp)]
    rw [if_pos hdrive]
    rw [if_neg (by rw [hnor]; simp)]
    unfold qsFirstValue
    rw [hquery, hqsl]
    rfl

/-! ## Embeddability and title heuristics (C8) -/

/-- Model of `str.lower` on the ASCII text the application handles. -/
def lowerAscii (s : List Char) : List Char := s.map Char.toLower

/-- The fixed allow-list of `is_embeddable_url` (app.py lines 76-79). -/
def embeddable_platforms : List (List Char) :=
  ["canva.com".data, "slideshare.net".data, "speakerdeck.com".data,
   "visme.co".data, "prezi.com".data, "haikudeck.com".data, "slideonline.com".data]

/-- Model of `is_embeddable_url` (lines 74-82): some allow-listed platform is
a substring of the lower-cased domain.  The function has no `try/except`, so
a raising `urlparse` propagates out of it: `none` models that uncaught
`ValueError`. -/
def is_embeddable_url (url : List Char) : Option Bool :=
  if urlparseRaises url then none
  else some (embeddable_platforms.any (fun p => pyIn p (lowerAscii (pyNetloc url))))

/-- Join a list of pieces with a separator between consecutive pieces. -/
def joinWith (sepr : List Char) : List (List Char) → List Char
  | [] => []
  | [x] => x
  | x :: y :: rest => x ++ sepr ++ joinWith sepr (y :: rest)

/-- Model of Python's `s.replace(old, new)` for a non-empty `old`: replace the
non-overlapping occurrences, left to right. -/
def pyReplace (old new s : List Char) : List Char := joinWith new (pySplit old s)

/-- Model of `extract_title_from_url` (lines 131-147).  Note the function
checks only three of the seven allow-listed platforms, strips every occurrence
of `www.` from the netloc and does not lower-case it; a raising `urlparse`
lands in the `except`, which returns `Untitled Presentation`. -/
def extract_title_from_url (url : List Char) : List Char :=
  if pyIn "docs.google.com".data url || pyIn "drive.google.com".data url then
    "Google Slides Presentation".data
  else if urlparseRaises url then "Untitled Presentation".data
  else
    if pyIn "canva.com".data (pyReplace "www.".data [] (pyNetloc url)) then
      "Canva Presentation".data
    else if pyIn "slideshare.net".data (pyReplace "www.".data [] (pyNetloc url)) then
      "SlideShare Presentation".data
    else if pyIn "speakerdeck.com".data (pyReplace "www.".data [] (pyNetloc url)) then
      "SpeakerDeck Presentation".data
    else "Presentation from ".data ++ pyReplace "www.".data [] (pyNetloc url)

/-- C8 counterexample: `prezi.com` is on the embeddability allow-list and its
URL is judged embeddable, yet the default title is the generic fallback
`Presentation from prezi.com` — the title is not chosen by matching the domain
against the same list. -/
theorem c8_counterexample :
    "prezi.com".data ∈ embeddable_platforms ∧
    is_embeddable_url "https://prezi.com/p/demo".data = some true ∧
    extract_title_from_url "https://prezi.com/p/demo".data
      = "Presentation from prezi.com".data := by decide

/-- C8 as amended: for non-Google URLs on which `urlparse` raises, the title
is `Untitled Presentation` and `is_embeddable_url` raises; otherwise
embeddability is decided by the fixed seven-platform allow-list
(canva.com, slideshare.net, speakerdeck.com, visme.co, prezi.com,
haikudeck.com, slideonline.com) over the lower-cased netloc, while the
default title matches the (www-stripped, unlowered) netloc against only the
three platforms `canva.com`, `slideshare.net` and `speakerdeck.com`, falling
back to `Presentation from <domain>` exactly when none of those three
matches. -/
theorem c8_amended (url : List Char)
    (hng : (pyIn "docs.google.com".data url || pyIn "drive.google.com".data url) = false)
    (hm : urlparseModelled url = true) :
    (urlparseRaises url = true →
      is_embeddable_url url = none ∧
      extract_title_from_url url = "Untitled Presentation".data) ∧
    (urlparseRaises url = false →
      (is_embeddable_url url = some true ↔
        ∃ p ∈ embeddable_platforms, pyIn p (lowerAscii (pyNetloc url)) = true) ∧
      (extract_title_from_url url
          = "Presentation from ".data ++ pyReplace "www.".data [] (pyNetloc url) ↔
        ∀ p ∈ ["canva.com".data, "slideshare.net".data, "speakerdeck.com".data],
          pyIn p (pyReplace "www.".data [] (pyNetloc url)) = false)) := by
  clear hm
  constructor
  · intro hr
    constructor
    · unfold is_embeddable_url
      rw [if_pos hr]
    · unfold extract_title_from_url
      rw [hng]
      simp only [Bool.false_eq_true, if_false]
      rw [if_pos hr]
  · intro hr
    constructor
    · unfold is_embeddable_url
      rw [if_neg (by simp [hr])]
      rw [show ∀ a : Bool, (some a = some true ↔ a = true) from fun a => by simp]
      rw [List.any_eq_true]
    · unfold extract_title_from_url
      rw [hng]
      simp only [Bool.false_eq_true, if_false]
      rw [if_neg (by simp [hr])]
      by_cases h1 : pyIn "canva.com".data (pyReplace "www.".data [] (pyNetloc url)) = true
      · simp only [h1, if_true]
        constructor
        · intro h
          have hhead : ('C' : Char) = 'P' := congrArg (fun l : List Char => l.headD ' ') h
          exact absurd hhead (by decide)
        · intro hall
          have hc := hall "canva.com".data (by simp)
          rw [h1] at hc; cases hc
      · simp only [Bool.not_eq_true] at h1
        simp only [h1, Bool.false_eq_true, if_false]
        by_cases h2 : pyIn "slideshare.net".data (pyReplace "www.".data [] (pyNetloc url)) = true
        · simp only [h2, if_true]
          constructor
          · intro h
            have hhead : ('S' : Char) = 'P' := congrArg (fun l : List Char => l.headD ' ') h
            exact absurd hhead (by decide)
          · intro hall
            have hc := hall "slideshare.net".data (by simp)
            rw [h2] at hc; cases hc
        · simp only [Bool.not_eq_true] at h2
          simp only [h2, Bool.false_eq_true, if_false]
          by_cases h3 : pyIn "speakerdeck.com".data
              (pyReplace "www.".data [] (pyNetloc url)) = true
          · simp only [h3, if_true]
            constructor
            · intro h
              have hhead : ('S' : Char) = 'P' := congrArg (fun l : List Char => l.headD ' ') h
              exact absurd hhead (by decide)
            · intro hall
              have hc := hall "speakerdeck.com".data (by simp)
              rw [h3] at hc; cases hc
          · simp only [Bool.not_eq_true] at h3
            simp only [h3, Bool.false_eq_true, if_false]
            constructor
            · intro _ p hp
              simp only [List.mem_cons, List.not_mem_nil, or_false] at hp
              rcases hp with rfl | rfl | rfl
              · exact h1
              · exact h2
              · exact h3
            · intro _; trivial

/-- C8 amended-claim witness at the concrete URL `https://example.org/x`. -/
theorem c8_amended_witness :
    (urlparseRaises "https://example.org/x".data = true →
      is_embeddable_url "https://example.org/x".data = none ∧
      extract_title_from_url "https://example.org/x".data = "Untitled Presentation".data) ∧
    (urlparseRaises "https://example.org/x".data = false →
      (is_embeddable_url "https://example.org/x".data = some true ↔
        ∃ p ∈ embeddable_platforms,
          pyIn p (lowerAscii (pyNetloc "https://example.org/x".data)) = true) ∧
      (extract_title_from_url "https://example.org/x".data
          = "Presentation from ".data
              ++ pyReplace "www.".data [] (pyNetloc "https://example.org/x".data) ↔
        ∀ p ∈ ["canva.com".data, "slideshare.net".data, "speakerdeck.com".data],
          pyIn p (pyReplace "www.".data []
            (pyNetloc "https://example.org/x".data)) = false)) :=
  c8_amended "https://example.org/x".data (by decide) (by decide)

/-! ## JSON values (the store document) -/

mutual
/-- JSON values as produced by `json.load` and consumed by `json.dump`.
Numbers are unbounded integers; a document whose value holds a float (or
`NaN`/`Infinity`, or a string with a lone surrogate) is accepted by the
grammar model `jaccAll` but lies outside this value type. -/
inductive JVal where
  | jnull
  | jbool (b : Bool)
  | jnum (n : Int)
  | jstr (s : List Char)
  | jarr (l : JList)
  | jobj (m : JObj)
deriving DecidableEq
/-- A JSON array, as a list of values. -/
inductive JList where
  | nil
  | cons (v : JVal) (tl : JList)
deriving DecidableEq
/-- A JSON object, as an ordered association list of members. -/
inductive JObj where
  | nil
  | cons (k : List Char) (v : JVal) (tl : JObj)
deriving DecidableEq
end

def JList.length : JList → Nat
  | .nil => 0
  | .cons _ t => t.length + 1

/-- Model of Python `list.append` on the store list. -/
def JList.push : JList → JVal → JList
  | .nil, v => .cons v .nil
  | .cons w t, v => .cons w (t.push v)

def JList.getIdx : JList → Nat → Option JVal
  | .nil, _ => none
  | .cons v _, 0 => some v
  | .cons _ t, n + 1 => t.getIdx n

/-- Model of Python `list.pop(i)` for an in-range index: remove position `i`.  -/
def JList.eraseIdx : JList → Nat → JList
  | .nil, _ => .nil
  | .cons _ t, 0 => t
  | .cons v t, n + 1 => .cons v (t.eraseIdx n)

def JObj.lookupKey : JObj → List Char → Option JVal
  | .nil, _ => none
  | .cons k v t, key => if k == key then some v else t.lookupKey key

def JObj.eraseKey : JObj → List Char → JObj
  | .nil, _ => .nil
  | .cons k v t, key => if k == key then t.eraseKey key else .cons k v (t.eraseKey key)

/-- Incorporate one leading `key: value` member into the dictionary built from
the later members, with Python `dict` semantics: the key keeps its first
position, a later duplicate keeps its (later, overriding) value. -/
def insKey (k : List Char) (v : JVal) (m : JObj) : JObj :=
  match m.lookupKey k with
  | some v' => JObj.cons k v' (m.eraseKey k)
  | none => JObj.cons k v m

def lbrace : Char := Char.ofNat 123

def rbrace : Char := Char.ofNat 125

/-- Decimal digits of `n`, most significant first; fuel `n + 1` suffices. -/
def natDigits : Nat → Nat → List Char
  | 0, _ => []
  | f + 1, n =>
    if n < 10 then [Char.ofNat (48 + n)]
    else natDigits f (n / 10) ++ [Char.ofNat (48 + n % 10)]

def natRepr (n : Nat) : List Char := natDigits (n + 1) n

/-- Model of Python `repr` of an `int`, as `json.dump` writes it. -/
def intRepr : Int → List Char
  | .ofNat m => natRepr m
  | .negSucc m => '-' :: natRepr (m + 1)

def hexDigit (n : Nat) : Char :=
  if n < 10 then Char.ofNat (48 + n) else Char.ofNat (87 + n)

/-- The four lower-case hex digits of a code unit, as `json.dump` writes
them. -/
def hex4 (n : Nat) : List Char :=
  [hexDigit (n / 4096 % 16), hexDigit (n / 256 % 16), hexDigit (n / 16 % 16), hexDigit (n % 16)]

/-- Escape one character as `json.dump` with the default `ensure_ascii=True`
does: the short escapes, `\uXXXX` for other characters outside `0x20`-`0x7e`,
and a surrogate pair of `\uXXXX` escapes for astral characters. -/
def escChar (c : Char) : List Char :=
  if c == '"' then ['\\', '"']
  else if c == '\\' then ['\\', '\\']
  else if c == '\n' then ['\\', 'n']
  else if c == '\t' then ['\\', 't']
  else if c == '\r' then ['\\', 'r']
  else if c.toNat == 8 then ['\\', 'b']
  else if c.toNat == 12 then ['\\', 'f']
  else if decide (c.toNat < 32) || decide (126 < c.toNat) then
    if decide (c.toNat < 65536) then '\\' :: 'u' :: hex4 c.toNat
    else '\\' :: 'u' :: hex4 (55296 + (c.toNat - 65536) / 1024)
      ++ '\\' :: 'u' :: hex4 (56320 + (c.toNat - 65536) % 1024)
  else [c]

def escStr : List Char → List Char
  | [] => []
  | c :: r => escChar c ++ escStr r

/-- The newline-plus-indentation `json.dump(..., indent=2)` emits before an
item at nesting level `lvl`. -/
def jNewline (lvl : Nat) : List Char := '\n' :: List.replicate (2 * lvl) ' '

mutual
/-- Model of `json.dump(obj, f, indent=2)` at nesting level `lvl` (the default
separators with an indent are `(',', ': ')`). -/
def dumpVal : JVal → Nat → List Char
  | .jnull, _ => "null".data
  | .jbool true, _ => "true".data
  | .jbool false, _ => "false".data
  | .jnum n, _ => intRepr n
  | .jstr s, _ => '"' :: escStr s ++ ['"']
  | .jarr .nil, _ => "[]".data
  | .jarr (.cons v t), lvl =>
    '[' :: jNewline (lvl + 1) ++ dumpVal v (lvl + 1) ++ dumpMoreElems t (lvl + 1)
      ++ jNewline lvl ++ "]".data
  | .jobj .nil, _ => [lbrace, rbrace]
  | .jobj (.cons k v t), lvl =>
    lbrace :: jNewline (lvl + 1) ++ '"' :: escStr k ++ '"' :: ':' :: ' '
      :: dumpVal v (lvl + 1) ++ dumpMoreMembers t (lvl + 1) ++ jNewline lvl ++ [rbrace]
def dumpMoreElems : JList → Nat → List Char
  | .nil, _ => []
  | .cons v t, lvl => ',' :: jNewline lvl ++ dumpVal v lvl ++ dumpMoreElems t lvl
def dumpMoreMembers : JObj → Nat → List Char
  | .nil, _ => []
  | .cons k v t, lvl =>
    ',' :: jNewline lvl ++ '"' :: escStr k ++ '"' :: ':' :: ' '
      :: dumpVal v lvl ++ dumpMoreMembers t lvl
end

/-- Model of the full `json.dump(st.session_state.slides, f, indent=2)`. -/
def dumps (v : JVal) : List Char := dumpVal v 0

def isJsonWs (c : Char) : Bool := c == ' ' || c == '\t' || c == '\n' || c == '\r'

def skipWs (s : List Char) : List Char := s.dropWhile isJsonWs

def isDigitCh (c : Char) : Bool := decide ('0' ≤ c) && decide (c ≤ '9')

def digitsVal (ds : List Char) : Nat := ds.foldl (fun a c => 10 * a + (c.toNat - 48)) 0

/-- Parse a JSON natural number: `0`, or a nonzero digit followed by a maximal
digit run (leading zeros are rejected as in Python; a fractional or exponent
part would make a float, which the value model does not represent, so it is
not consumed and the enclosing parse fails on the stray character — such
documents are accepted by `jaccAll` and land outside the value model). -/
def pNat : List Char → Option (Nat × List Char)
  | [] => none
  | c :: r =>
    if c == '0' then some (0, r)
    else if isDigitCh c then
      some (digitsVal ((c :: r).takeWhile isDigitCh), (c :: r).dropWhile isDigitCh)
    else none

/-- The two-character escapes `json.load` accepts after a backslash. -/
def escShort (e : Char) : Option Char :=
  if e == '"' then some '"'
  else if e == '\\' then some '\\'
  else if e == '/' then some '/'
  else if e == 'n' then some '\n'
  else if e == 't' then some '\t'
  else if e == 'r' then some '\r'
  else if e == 'b' then some (Char.ofNat 8)
  else if e == 'f' then some (Char.ofNat 12)
  else none

/-- Read one further `\uXXXX` escape: the code unit and the rest.  Used for
the low half of a surrogate pair. -/
def readU4 : List Char → Option (Nat × List Char)
  | '\\' :: 'u' :: g1 :: g2 :: g3 :: g4 :: r3 =>
    (match hexDigVal g1, hexDigVal g2, hexDigVal g3, hexDigVal g4 with
     | some a, some b, some cc, some d => some (4096 * a + 256 * b + 16 * cc + d, r3)
     | _, _, _, _ => none)
  | _ => none

def pStrF : Nat → List Char → Option (List Char × List Char)
  | 0, _ => none
  | _ + 1, [] => none
  | f + 1, c :: r =>
    if c == '"' then some ([], r)
    else if c == '\\' then
      match r with
      | 'u' :: h1 :: h2 :: h3 :: h4 :: r2 =>
        (match hexDigVal h1, hexDigVal h2, hexDigVal h3, hexDigVal h4 with
         | some a, some b, some cc, some d =>
           if decide (4096 * a + 256 * b + 16 * cc + d < 55296)
               || decide (57343 < 4096 * a + 256 * b + 16 * cc + d) then
             (pStrF f r2).map (fun p =>
               (Char.ofNat (4096 * a + 256 * b + 16 * cc + d) :: p.1, p.2))
           else if decide (4096 * a + 256 * b + 16 * cc + d ≤ 56319) then
             match readU4 r2 with
             | some (u2, r3) =>
               if decide (56320 ≤ u2) && decide (u2 ≤ 57343) then
                 (pStrF f r3).map (fun p =>
                   (Char.ofNat (65536 + 1024 * (4096 * a + 256 * b + 16 * cc + d - 55296)
                     + (u2 - 56320)) :: p.1, p.2))
               else none
             | none => none
           else none
         | _, _, _, _ => none)
      | e :: r2 =>
        (match escShort e with
         | some d => (pStrF f r2).map (fun p => (d :: p.1, p.2))
         | none => none)
      | [] => none
    else if decide (c.toNat < 32) then none
    else (pStrF f r).map (fun p => (c :: p.1, p.2))

/-- Parse a JSON string body after the opening quote, in the strict mode
`json.load` uses: raw control characters are rejected; a `\uXXXX` escape
decodes one scalar value, a high-surrogate escape followed by a low-surrogate
escape combines into one astral character as `json.load` does, and a string
whose value would hold a lone surrogate — legal for `json.load` but not a
scalar value — is outside the model (`none`). -/
def pStrBody (s : List Char) : Option (List Char × List Char) := pStrF (s.length + 1) s

mutual
/-- Fuel-driven model of the `json.load` value scanner. -/
def pVal : Nat → List Char → Option (JVal × List Char)
  | 0, _ => none
  | f + 1, s =>
    match skipWs s with
    | [] => none
    | c :: r =>
      if c == '"' then (pStrBody r).map (fun p => (JVal.jstr p.1, p.2))
      else if c == '[' then
        match skipWs r with
        | [] => none
        | c2 :: r2 =>
          if c2 == ']' then some (JVal.jarr JList.nil, r2)
          else (pElems f r).map (fun p => (JVal.jarr p.1, p.2))
      else if c == lbrace then
        match skipWs r with
        | [] => none
        | c2 :: _ =>
          if c2 == rbrace then some (JVal.jobj JObj.nil, (skipWs r).tail)
          else (pMembers f r).map (fun p => (JVal.jobj p.1, p.2))
      else if c == 't' then
        match r with
        | 'r' :: 'u' :: 'e' :: r2 => some (JVal.jbool true, r2)
        | _ => none
      else if c == 'f' then
        match r with
        | 'a' :: 'l' :: 's' :: 'e' :: r2 => some (JVal.jbool false, r2)
        | _ => none
      else if c == 'n' then
        match r with
        | 'u' :: 'l' :: 'l' :: r2 => some (JVal.jnull, r2)
        | _ => none
      else if c == '-' then
        (pNat r).map (fun p => (JVal.jnum (-(p.1 : Int)), p.2))
      else (pNat (c :: r)).map (fun p => (JVal.jnum (p.1 : Int), p.2))
def pElems : Nat → List Char → Option (JList × List Char)
  | 0, _ => none
  | f + 1, s =>
    match pVal f s with
    | none => none
    | some (v, r1) =>
      match skipWs r1 with
      | [] => none
      | c2 :: r2 =>
        if c2 == ',' then (pElems f r2).map (fun p => (JList.cons v p.1, p.2))
        else if c2 == ']' then some (JList.cons v JList.nil, r2)
        else none
def pMembers : Nat → List Char → Option (JObj × List Char)
  | 0, _ => none
  | f + 1, s =>
    match skipWs s with
    | [] => none
    | c :: r =>
      if c == '"' then
        match pStrBody r with
        | none => none
        | some (k, r1) =>
          match skipWs r1 with
          | [] => none
          | c3 :: r3 =>
            if c3 == ':' then
              match pVal f r3 with
              | none => none
              | some (v, r4) =>
                match skipWs r4 with
                | [] => none
                | c5 :: r5 =>
                  if c5 == ',' then (pMembers f r5).map (fun p => (insKey k v p.1, p.2))
                  else if c5 == rbrace then some (JObj.cons k v JObj.nil, r5)
                  else none
            else none
      else none
end

/-- The value layer of the `json.load` model: parse one value, require only
trailing whitespace.  Produces exactly `json.load`'s value when that value is
representable (no floats, `NaN`, `Infinity` or lone-surrogate strings), and
`none` otherwise; acceptance of the full grammar is `jaccAll`'s job.  Each
recursive level consumes at least one character past an opening bracket, so
`2 * length + 2` fuel always suffices. -/
def parseJson (s : List Char) : Option JVal :=
  match pVal (2 * s.length + 2) s with
  | some (v, rest) => if rest.all isJsonWs then some v else none
  | none => none

example : parseJson "[1, -20, \"a\"]".data
    = some (JVal.jarr (JList.cons (JVal.jnum 1) (JList.cons (JVal.jnum (-20))
        (JList.cons (JVal.jstr ['a']) JList.nil)))) := by decide

example : parseJson (dumps (JVal.jarr (JList.cons (JVal.jobj (JObj.cons "id".data
      (JVal.jnum 1) (JObj.cons "title".data (JVal.jstr "a\nb".data) JObj.nil))) JList.nil)))
    = some (JVal.jarr (JList.cons (JVal.jobj (JObj.cons "id".data
      (JVal.jnum 1) (JObj.cons "title".data (JVal.jstr "a\nb".data) JObj.nil))) JList.nil)) := by
  decide

example : parseJson "[01]".data = none := by decide

/-! ## Well-formedness and fuel bounds for the round trip -/

/-- A character equality is false when one side satisfies a boolean character
class the other does not. -/
theorem beq_false_of_pred {p : Char → Bool} {c x : Char} (hc : p c = true)
    (hx : p x = false) : (c == x) = false :=
  beq_eq_false_iff_ne.mpr (fun he => by rw [he] at hc; rw [hc] at hx; cases hx)

def asciiStr (s : List Char) : Bool := s.all (fun c => decide (c.toNat < 128))

mutual
/-- The fragment of JSON the store actually holds: ASCII strings, and object
keys that are ASCII and distinct (as any `dict` that `json.load` produces). -/
def jwf : JVal → Bool
  | .jnull => true
  | .jbool _ => true
  | .jnum _ => true
  | .jstr _ => true
  | .jarr l => lwf l
  | .jobj m => mwf m
def lwf : JList → Bool
  | .nil => true
  | .cons v t => jwf v && lwf t
def mwf : JObj → Bool
  | .nil => true
  | .cons k v t => !(t.lookupKey k).isSome && jwf v && mwf t
end

mutual
/-- Fuel sufficient for `pVal` to parse the dump of a value. -/
def jfuel : JVal → Nat
  | .jnull => 1
  | .jbool _ => 1
  | .jnum _ => 1
  | .jstr _ => 1
  | .jarr l => lfuel l + 1
  | .jobj m => mfuel m + 1
def lfuel : JList → Nat
  | .nil => 1
  | .cons v t => max (jfuel v) (lfuel t) + 1
def mfuel : JObj → Nat
  | .nil => 1
  | .cons _ v t => max (jfuel v) (mfuel t) + 1
end

/-- Whether a continuation cannot extend a just-parsed number. -/
def digitSafe : List Char → Bool
  | [] => true
  | c :: _ => !(isDigitCh c)

theorem natDigits_succ (f n : Nat) :
    natDigits (f + 1) n = if n < 10 then [Char.ofNat (48 + n)]
      else natDigits f (n / 10) ++ [Char.ofNat (48 + n % 10)] := rfl

theorem natDigits_all {f : Nat} : ∀ {n : Nat}, n < f →
    (natDigits f n).all isDigitCh = true ∧ natDigits f n ≠ [] := by
  induction f with
  | zero => intro n h; omega
  | succ f' ih =>
    intro n h
    by_cases h10 : n < 10
    · rw [natDigits_succ, if_pos h10]
      have hd : ∀ m, m < 10 → isDigitCh (Char.ofNat (48 + m)) = true := by decide
      exact ⟨by simp [hd n h10], by simp⟩
    · have hdiv : n / 10 < f' := by
        have := Nat.div_lt_self (by omega : 0 < n) (by omega : 1 < 10)
        omega
      obtain ⟨ha, hb⟩ := ih hdiv
      rw [natDigits_succ, if_neg h10]
      have hd : ∀ m, m < 10 → isDigitCh (Char.ofNat (48 + m)) = true := by decide
      constructor
      · rw [List.all_append, ha]
        simp [hd (n % 10) (Nat.mod_lt n (by omega))]
      · simp

theorem natDigits_val {f : Nat} : ∀ {n : Nat}, n < f →
    digitsVal (natDigits f n) = n := by
  induction f with
  | zero => intro n h; omega
  | succ f' ih =>
    intro n h
    have htn : ∀ m, m < 10 → (Char.ofNat (48 + m)).toNat = 48 + m := by decide
    by_cases h10 : n < 10
    · rw [natDigits_succ, if_pos h10]
      unfold digitsVal
      simp only [List.foldl_cons, List.foldl_nil]
      rw [htn n h10]
      omega
    · have hdiv : n / 10 < f' := by
        have := Nat.div_lt_self (by omega : 0 < n) (by omega : 1 < 10)
        omega
      rw [natDigits_succ, if_neg h10]
      unfold digitsVal
      rw [List.foldl_append]
      have hval := ih hdiv
      unfold digitsVal at hval
      rw [hval]
      simp only [List.foldl_cons, List.foldl_nil]
      rw [htn (n % 10) (Nat.mod_lt n (by omega))]
      omega

theorem natDigits_head {f : Nat} : ∀ {n : Nat}, n < f → 1 ≤ n →
    ∃ c t, natDigits f n = c :: t ∧ (c == '0') = false := by
  induction f with
  | zero => intro n h; omega
  | succ f' ih =>
    intro n h h1
    by_cases h10 : n < 10
    · refine ⟨Char.ofNat (48 + n), [], by rw [natDigits_succ, if_pos h10], ?_⟩
      have hz : ∀ m, 1 ≤ m → m < 10 → (Char.ofNat (48 + m) == '0') = false := by decide
      exact hz n h1 h10
    · have hdiv : n / 10 < f' := by
        have := Nat.div_lt_self (by omega : 0 < n) (by omega : 1 < 10)
        omega
      have h1' : 1 ≤ n / 10 := by omega
      obtain ⟨c, t, hct, hc0⟩ := ih hdiv h1'
      refine ⟨c, t ++ [Char.ofNat (48 + n % 10)], ?_, hc0⟩
      rw [natDigits_succ, if_neg h10, hct]
      simp

/-- The decimal digits of `n`, `natRepr n`, start with a digit character. -/
theorem natRepr_shape (n : Nat) :
    ∃ c t, natRepr n = c :: t ∧ isDigitCh c = true ∧ (c :: t).all isDigitCh = true := by
  obtain ⟨ha, hb⟩ := natDigits_all (f := n + 1) (n := n) (by omega)
  rcases hct : natDigits (n + 1) n with _ | ⟨c, t⟩
  · exact absurd hct hb
  · rw [hct] at ha
    refine ⟨c, t, hct, ?_, ha⟩
    simp only [List.all_cons, Bool.and_eq_true] at ha
    exact ha.1

theorem takeWhile_nil_of_digitSafe {rest : List Char} (h : digitSafe rest = true) :
    rest.takeWhile isDigitCh = [] := by
  cases rest with
  | nil => rfl
  | cons c r =>
    unfold digitSafe at h
    simp only [Bool.not_eq_eq_eq_not, Bool.not_true] at h
    simp [List.takeWhile_cons, h]

theorem dropWhile_append_all {f : Char → Bool} {p : List Char}
    (h : ∀ c ∈ p, f c = true) (s : List Char) :
    (p ++ s).dropWhile f = s.dropWhile f := by
  induction p with
  | nil => rfl
  | cons c p' ih =>
    have hc : f c = true := h c (by simp)
    simp only [List.cons_append, List.dropWhile_cons, hc, if_true]
    exact ih (fun d hd => h d (by simp [hd]))

theorem dropWhile_nil_of_digitSafe {rest : List Char} (h : digitSafe rest = true) :
    rest.dropWhile isDigitCh = rest := by
  cases rest with
  | nil => rfl
  | cons c r =>
    unfold digitSafe at h
    simp only [Bool.not_eq_eq_eq_not, Bool.not_true] at h
    simp [List.dropWhile_cons, h]

theorem pNat_natRepr (n : Nat) {rest : List Char} (hrest : digitSafe rest = true) :
    pNat (natRepr n ++ rest) = some (n, rest) := by
  rcases Nat.eq_zero_or_pos n with rfl | hpos
  · show pNat ('0' :: rest) = some (0, rest)
    rfl
  · obtain ⟨c, t, hct, hdig, hall⟩ := natRepr_shape n
    have hc0 : (c == '0') = false := by
      obtain ⟨c', t', hct', hc0'⟩ := natDigits_head (f := n + 1) (n := n) (by omega) hpos
      have hcc : c = c' := by
        have h1 : natRepr n = c :: t := hct
        unfold natRepr at h1
        rw [hct'] at h1
        injection h1 with h1a
        exact h1a.symm
      rw [hcc]
      exact hc0'
    rw [hct]
    show (if (c == '0') = true then some (0, t ++ rest)
          else if isDigitCh c = true then
            some (digitsVal ((c :: (t ++ rest)).takeWhile isDigitCh),
                  (c :: (t ++ rest)).dropWhile isDigitCh)
          else none) = some (n, rest)
    rw [hc0]
    simp only [Bool.false_eq_true, if_false, hdig, if_true]
    have hallmem : ∀ d ∈ c :: t, isDigitCh d = true := List.all_eq_true.mp hall
    have hca : (c :: t) ++ rest = c :: (t ++ rest) := by simp
    have htake : (c :: (t ++ rest)).takeWhile isDigitCh = c :: t := by
      rw [← hca, takeWhile_append_left hallmem rest, takeWhile_nil_of_digitSafe hrest]
      simp
    have hdrop : (c :: (t ++ rest)).dropWhile isDigitCh = rest := by
      rw [← hca, dropWhile_append_all hallmem rest, dropWhile_nil_of_digitSafe hrest]
    rw [htake, hdrop]
    have hv : digitsVal (c :: t) = n := by
      rw [← hct]
      exact natDigits_val (by omega)
    rw [hv]

theorem hexDigVal_hexDigit : ∀ m, m < 16 → hexDigVal (hexDigit m) = some m := by decide

theorem escChar_u {c : Char} (h1 : (c == '"') = false) (h2 : (c == '\\') = false)
    (h3 : (c == '\n') = false) (h4 : (c == '\t') = false) (h5 : (c == '\r') = false)
    (h6 : (c.toNat == 8) = false) (h7 : (c.toNat == 12) = false)
    (h8 : (decide (c.toNat < 32) || decide (126 < c.toNat)) = true)
    (h9 : c.toNat < 65536) :
    escChar c = '\\' :: 'u' :: hex4 c.toNat := by
  unfold escChar
  rw [h1, h2, h3, h4, h5, h6, h7]
  simp only [Bool.false_eq_true, if_false, h8, if_true]
  rw [if_pos (by simpa using h9)]

theorem escChar_pair {c : Char} (h9 : 65536 ≤ c.toNat) :
    escChar c = '\\' :: 'u' :: hex4 (55296 + (c.toNat - 65536) / 1024)
      ++ '\\' :: 'u' :: hex4 (56320 + (c.toNat - 65536) % 1024) := by
  have h1 : (c == '"') = false := by
    apply beq_eq_false_iff_ne.mpr
    intro h; subst h; exact absurd h9 (by decide)
  have h2 : (c == '\\') = false := by
    apply beq_eq_false_iff_ne.mpr
    intro h; subst h; exact absurd h9 (by decide)
  have h3 : (c == '\n') = false := by
    apply beq_eq_false_iff_ne.mpr
    intro h; subst h; exact absurd h9 (by decide)
  have h4 : (c == '\t') = false := by
    apply beq_eq_false_iff_ne.mpr
    intro h; subst h; exact absurd h9 (by decide)
  have h5 : (c == '\r') = false := by
    apply beq_eq_false_iff_ne.mpr
    intro h; subst h; exact absurd h9 (by decide)
  have h6 : (c.toNat == 8) = false := by
    apply beq_eq_false_iff_ne.mpr
    omega
  have h7 : (c.toNat == 12) = false := by
    apply beq_eq_false_iff_ne.mpr
    omega
  have h8 : (decide (c.toNat < 32) || decide (126 < c.toNat)) = true := by
    simp
    omega
  unfold escChar
  rw [h1, h2, h3, h4, h5, h6, h7]
  simp only [Bool.false_eq_true, if_false, h8, if_true]
  rw [if_neg (by simp; omega)]

theorem escChar_raw {c : Char} (h1 : (c == '"') = false) (h2 : (c == '\\') = false)
    (h3 : (c == '\n') = false) (h4 : (c == '\t') = false) (h5 : (c == '\r') = false)
    (h6 : (c.toNat == 8) = false) (h7 : (c.toNat == 12) = false)
    (h8 : (decide (c.toNat < 32) || decide (126 < c.toNat)) = false) :
    escChar c = [c] := by
  unfold escChar
  rw [h1, h2, h3, h4, h5, h6, h7]
  simp only [Bool.false_eq_true, if_false, h8]

theorem pStrF_raw {c : Char} {f : Nat} {r : List Char} (h1 : (c == '"') = false)
    (h2 : (c == '\\') = false) (h3 : decide (c.toNat < 32) = false) :
    pStrF (f + 1) (c :: r) = (pStrF f r).map (fun p => (c :: p.1, p.2)) := by
  conv_lhs => unfold pStrF
  rw [h1, h2, h3]
  simp only [Bool.false_eq_true, if_false]

/-- A character is a Unicode scalar value: never a surrogate, below
`0x110000`. -/
theorem char_not_surrogate (c : Char) :
    (c.toNat < 55296 ∨ 57343 < c.toNat) ∧ c.toNat < 1114112 := by
  have hval := c.valid
  unfold UInt32.isValidChar Nat.isValidChar at hval
  have htn : c.toNat = c.val.toNat := rfl
  rcases hval with h | ⟨h1, h2⟩
  · refine ⟨Or.inl ?_, ?_⟩ <;> omega
  · refine ⟨Or.inr ?_, ?_⟩ <;> omega

theorem readU4_step (g1 g2 g3 g4 : Char) (r3 : List Char) :
    readU4 ('\\' :: 'u' :: g1 :: g2 :: g3 :: g4 :: r3)
      = (match hexDigVal g1, hexDigVal g2, hexDigVal g3, hexDigVal g4 with
         | some a, some b, some cc, some d => some (4096 * a + 256 * b + 16 * cc + d, r3)
         | _, _, _, _ => none) := rfl

theorem readU4_hex4 (n : Nat) (hn : n < 65536) (x : List Char) :
    readU4 ('\\' :: 'u' :: hex4 n ++ x) = some (n, x) := by
  have hshape : '\\' :: 'u' :: hex4 n ++ x
      = '\\' :: 'u' :: hexDigit (n / 4096 % 16) :: hexDigit (n / 256 % 16)
          :: hexDigit (n / 16 % 16) :: hexDigit (n % 16) :: x := by
    simp [hex4]
  rw [hshape, readU4_step]
  rw [hexDigVal_hexDigit _ (by omega), hexDigVal_hexDigit _ (by omega),
      hexDigVal_hexDigit _ (by omega), hexDigVal_hexDigit _ (by omega)]
  dsimp only
  rw [show 4096 * (n / 4096 % 16) + 256 * (n / 256 % 16) + 16 * (n / 16 % 16) + n % 16
      = n from by omega]

theorem pStrF_u_step (f : Nat) (h1 h2 h3 h4 : Char) (r2 : List Char) :
    pStrF (f + 1) ('\\' :: 'u' :: h1 :: h2 :: h3 :: h4 :: r2)
      = (match hexDigVal h1, hexDigVal h2, hexDigVal h3, hexDigVal h4 with
         | some a, some b, some cc, some d =>
           if decide (4096 * a + 256 * b + 16 * cc + d < 55296)
               || decide (57343 < 4096 * a + 256 * b + 16 * cc + d) then
             (pStrF f r2).map (fun p =>
               (Char.ofNat (4096 * a + 256 * b + 16 * cc + d) :: p.1, p.2))
           else if decide (4096 * a + 256 * b + 16 * cc + d ≤ 56319) then
             match readU4 r2 with
             | some (u2, r3) =>
               if decide (56320 ≤ u2) && decide (u2 ≤ 57343) then
                 (pStrF f r3).map (fun p =>
                   (Char.ofNat (65536 + 1024 * (4096 * a + 256 * b + 16 * cc + d - 55296)
                     + (u2 - 56320)) :: p.1, p.2))
               else none
             | none => none
           else none
         | _, _, _, _ => none) := rfl

theorem pStrF_escChar {c : Char} (hc : c.toNat < 65536) (f : Nat) (x : List Char) :
    pStrF (f + 1) (escChar c ++ x) = (pStrF f x).map (fun p => (c :: p.1, p.2)) := by
  by_cases hq : c = '"'
  · subst hq; rfl
  by_cases hb : c = '\\'
  · subst hb; rfl
  by_cases hn : c = '\n'
  · subst hn; rfl
  by_cases ht2 : c = '\t'
  · subst ht2; rfl
  by_cases hr : c = '\r'
  · subst hr; rfl
  by_cases h8 : c.toNat = 8
  · have hco : c = Char.ofNat 8 := by rw [← h8, Char.ofNat_toNat]
    subst hco; rfl
  by_cases h12 : c.toNat = 12
  · have hco : c = Char.ofNat 12 := by rw [← h12, Char.ofNat_toNat]
    subst hco; rfl
  have hq' : (c == '"') = false := beq_eq_false_iff_ne.mpr hq
  have hb' : (c == '\\') = false := beq_eq_false_iff_ne.mpr hb
  have hn' : (c == '\n') = false := beq_eq_false_iff_ne.mpr hn
  have ht' : (c == '\t') = false := beq_eq_false_iff_ne.mpr ht2
  have hr' : (c == '\r') = false := beq_eq_false_iff_ne.mpr hr
  have h8' : (c.toNat == 8) = false := beq_eq_false_iff_ne.mpr h8
  have h12' : (c.toNat == 12) = false := beq_eq_false_iff_ne.mpr h12
  by_cases hrange : c.toNat < 32 ∨ 126 < c.toNat
  · have hcond : (decide (c.toNat < 32) || decide (126 < c.toNat)) = true := by
      rcases hrange with h | h
      · simp [h]
      · simp [h]
    rw [escChar_u hq' hb' hn' ht' hr' h8' h12' hcond hc]
    have hshape : ('\\' :: 'u' :: hex4 c.toNat) ++ x
        = '\\' :: 'u' :: hexDigit (c.toNat / 4096 % 16) :: hexDigit (c.toNat / 256 % 16)
            :: hexDigit (c.toNat / 16 % 16) :: hexDigit (c.toNat % 16) :: x := by
      simp [hex4]
    rw [hshape, pStrF_u_step]
    rw [hexDigVal_hexDigit _ (by omega), hexDigVal_hexDigit _ (by omega),
        hexDigVal_hexDigit _ (by omega), hexDigVal_hexDigit _ (by omega)]
    have harg : 4096 * (c.toNat / 4096 % 16) + 256 * (c.toNat / 256 % 16)
        + 16 * (c.toNat / 16 % 16) + c.toNat % 16 = c.toNat := by omega
    dsimp only
    rw [harg, if_pos (by
      have hns := (char_not_surrogate c).1
      rcases hns with h | h
      · simp [h]
      · simp [h]), Char.ofNat_toNat]
  · have hcond : (decide (c.toNat < 32) || decide (126 < c.toNat)) = false := by
      push_neg at hrange
      simp only [Bool.or_eq_false_iff, decide_eq_false_iff_not]
      omega
    rw [escChar_raw hq' hb' hn' ht' hr' h8' h12' hcond]
    have h32 : decide (c.toNat < 32) = false := by
      push_neg at hrange
      simp only [decide_eq_false_iff_not]
      omega
    show pStrF (f + 1) (c :: x) = _
    rw [pStrF_raw hq' hb' h32]

theorem pStrF_escChar_pair {c : Char} (hc : 65536 ≤ c.toNat) (f : Nat) (x : List Char) :
    pStrF (f + 1) (escChar c ++ x) = (pStrF f x).map (fun p => (c :: p.1, p.2)) := by
  have hub : c.toNat < 1114112 := (char_not_surrogate c).2
  rw [escChar_pair hc]
  have hshape : ('\\' :: 'u' :: hex4 (55296 + (c.toNat - 65536) / 1024)
        ++ '\\' :: 'u' :: hex4 (56320 + (c.toNat - 65536) % 1024)) ++ x
      = '\\' :: 'u' :: hexDigit ((55296 + (c.toNat - 65536) / 1024) / 4096 % 16)
          :: hexDigit ((55296 + (c.toNat - 65536) / 1024) / 256 % 16)
          :: hexDigit ((55296 + (c.toNat - 65536) / 1024) / 16 % 16)
          :: hexDigit ((55296 + (c.toNat - 65536) / 1024) % 16)
          :: ('\\' :: 'u' :: hex4 (56320 + (c.toNat - 65536) % 1024) ++ x) := by
    simp [hex4]
  rw [hshape, pStrF_u_step]
  rw [hexDigVal_hexDigit _ (by omega), hexDigVal_hexDigit _ (by omega),
      hexDigVal_hexDigit _ (by omega), hexDigVal_hexDigit _ (by omega)]
  have hhi : 4096 * ((55296 + (c.toNat - 65536) / 1024) / 4096 % 16)
      + 256 * ((55296 + (c.toNat - 65536) / 1024) / 256 % 16)
      + 16 * ((55296 + (c.toNat - 65536) / 1024) / 16 % 16)
      + (55296 + (c.toNat - 65536) / 1024) % 16
      = 55296 + (c.toNat - 65536) / 1024 := by omega
  dsimp only
  rw [hhi]
  rw [if_neg (by
        simp only [Bool.or_eq_true, decide_eq_true_eq, not_or]
        omega),
      if_pos (by
        simp only [decide_eq_true_eq]
        omega)]
  rw [readU4_hex4 (56320 + (c.toNat - 65536) % 1024) (by omega) x]
  dsimp only
  rw [if_pos (by
        simp only [Bool.and_eq_true, decide_eq_true_eq]
        omega)]
  have hcomb : 65536 + 1024 * (55296 + (c.toNat - 65536) / 1024 - 55296)
      + (56320 + (c.toNat - 65536) % 1024 - 56320) = c.toNat := by omega
  rw [hcomb, Char.ofNat_toNat]

theorem escStr_len (s : List Char) : s.length ≤ (escStr s).length := by
  induction s with
  | nil => simp [escStr]
  | cons c s' ih =>
    have : escChar c ≠ [] := by
      unfold escChar
      repeat' split
      all_goals simp
    rcases hc : escChar c with _ | ⟨d, t⟩
    · exact absurd hc this
    · simp only [escStr, hc, List.cons_append, List.length_cons, List.length_append]
      omega

theorem pStrF_roundtrip : ∀ {f : Nat} {s : List Char},
    s.length < f → ∀ (r : List Char), pStrF f (escStr s ++ '"' :: r) = some (s, r) := by
  intro f
  induction f with
  | zero => intro s h; omega
  | succ f' ih =>
    intro s hlen r
    cases s with
    | nil => rfl
    | cons c s' =>
      have hassoc : escStr (c :: s') ++ '"' :: r = escChar c ++ (escStr s' ++ '"' :: r) := by
        show (escChar c ++ escStr s') ++ '"' :: r = _
        simp [List.append_assoc]
      by_cases hc : c.toNat < 65536
      · rw [hassoc, pStrF_escChar hc, ih (by simp at hlen; omega) r]
        rfl
      · rw [hassoc, pStrF_escChar_pair (by omega), ih (by simp at hlen; omega) r]
        rfl

/-- Round trip for `json.dump`-escaped strings. -/
theorem pStrBody_roundtrip (s : List Char) (r : List Char) :
    pStrBody (escStr s ++ '"' :: r) = some (s, r) := by
  unfold pStrBody
  apply pStrF_roundtrip
  have h1 := escStr_len s
  simp only [List.length_append, List.length_cons]
  omega

/-! ## Step lemmas for the `json.load` scanner -/

theorem skipWs_cons {c : Char} {s : List Char} (h : isJsonWs c = false) :
    skipWs (c :: s) = c :: s := by
  unfold skipWs
  simp [List.dropWhile_cons, h]

theorem skipWs_append_ws {w : List Char} (hw : w.all isJsonWs = true) (s : List Char) :
    skipWs (w ++ s) = skipWs s :=
  dropWhile_append_all (List.all_eq_true.mp hw) s

theorem jNewline_ws (lvl : Nat) : (jNewline lvl).all isJsonWs = true := by
  unfold jNewline
  simp only [List.all_cons, Bool.and_eq_true]
  refine ⟨by decide, ?_⟩
  rw [List.all_eq_true]
  intro c hc
  rw [(List.mem_replicate.mp hc).2]
  decide

theorem pVal_null (f : Nat) (rest : List Char) :
    pVal (f + 1) ('n' :: 'u' :: 'l' :: 'l' :: rest) = some (JVal.jnull, rest) := rfl

theorem pVal_true (f : Nat) (rest : List Char) :
    pVal (f + 1) ('t' :: 'r' :: 'u' :: 'e' :: rest) = some (JVal.jbool true, rest) := rfl

theorem pVal_false (f : Nat) (rest : List Char) :
    pVal (f + 1) ('f' :: 'a' :: 'l' :: 's' :: 'e' :: rest) = some (JVal.jbool false, rest) := rfl

theorem pVal_quote (f : Nat) (r : List Char) :
    pVal (f + 1) ('"' :: r) = (pStrBody r).map (fun p => (JVal.jstr p.1, p.2)) := rfl

theorem pVal_minus (f : Nat) (r : List Char) :
    pVal (f + 1) ('-' :: r) = (pNat r).map (fun p => (JVal.jnum (-(p.1 : Int)), p.2)) := rfl

theorem pVal_lbracket (f : Nat) (r : List Char) :
    pVal (f + 1) ('[' :: r) = (match skipWs r with
      | [] => none
      | c2 :: r2 =>
        if c2 == ']' then some (JVal.jarr JList.nil, r2)
        else (pElems f r).map (fun p => (JVal.jarr p.1, p.2))) := rfl

theorem pVal_lbrace (f : Nat) (r : List Char) :
    pVal (f + 1) (lbrace :: r) = (match skipWs r with
      | [] => none
      | c2 :: _ =>
        if c2 == rbrace then some (JVal.jobj JObj.nil, (skipWs r).tail)
        else (pMembers f r).map (fun p => (JVal.jobj p.1, p.2))) := rfl

theorem pElems_step (f : Nat) (s : List Char) :
    pElems (f + 1) s = (match pVal f s with
      | none => none
      | some (v, r1) =>
        match skipWs r1 with
        | [] => none
        | c2 :: r2 =>
          if c2 == ',' then (pElems f r2).map (fun p => (JList.cons v p.1, p.2))
          else if c2 == ']' then some (JList.cons v JList.nil, r2)
          else none) := rfl

theorem pMembers_step (f : Nat) (s : List Char) :
    pMembers (f + 1) s = (match skipWs s with
      | [] => none
      | c :: r =>
        if c == '"' then
          match pStrBody r with
          | none => none
          | some (k, r1) =>
            match skipWs r1 with
            | [] => none
            | c3 :: r3 =>
              if c3 == ':' then
                match pVal f r3 with
                | none => none
                | some (v, r4) =>
                  match skipWs r4 with
                  | [] => none
                  | c5 :: r5 =>
                    if c5 == ',' then (pMembers f r5).map (fun p => (insKey k v p.1, p.2))
                    else if c5 == rbrace then some (JObj.cons k v JObj.nil, r5)
                    else none
              else none
        else none) := rfl

theorem pVal_ws_append {w : List Char} (hw : w.all isJsonWs = true) (f : Nat)
    (s : List Char) : pVal f (w ++ s) = pVal f s := by
  cases f with
  | zero => rfl
  | succ f' =>
    conv_lhs => unfold pVal
    conv_rhs => unfold pVal
    rw [skipWs_append_ws hw]

theorem pVal_digitHead {c : Char} (hd : isDigitCh c = true) (f : Nat) (r : List Char) :
    pVal (f + 1) (c :: r) = (pNat (c :: r)).map (fun p => (JVal.jnum (p.1 : Int), p.2)) := by
  have hws : isJsonWs c = false := by
    unfold isJsonWs
    rw [beq_false_of_pred hd (by decide), beq_false_of_pred hd (by decide),
        beq_false_of_pred hd (by decide), beq_false_of_pred hd (by decide)]
    rfl
  conv_lhs => unfold pVal
  rw [skipWs_cons hws]
  dsimp only
  rw [beq_false_of_pred hd (by decide), beq_false_of_pred hd (by decide),
      beq_false_of_pred hd (by decide), beq_false_of_pred hd (by decide),
      beq_false_of_pred hd (by decide), beq_false_of_pred hd (by decide),
      beq_false_of_pred hd (by decide)]
  simp only [Bool.false_eq_true, if_false]

theorem digit_not_rbracket {c : Char} (hd : isDigitCh c = true) : (c == ']') = false :=
  beq_false_of_pred hd (by decide)

/-- The dump of any value starts with a character that is neither whitespace
nor a closing bracket. -/
theorem dumpVal_head (v : JVal) (lvl : Nat) :
    ∃ c t, dumpVal v lvl = c :: t ∧ isJsonWs c = false ∧ (c == ']') = false := by
  cases v with
  | jnull => exact ⟨'n', "ull".data, rfl, by decide, by decide⟩
  | jbool b => cases b with
    | true => exact ⟨'t', "rue".data, rfl, by decide, by decide⟩
    | false => exact ⟨'f', "alse".data, rfl, by decide, by decide⟩
  | jnum n =>
    cases n with
    | ofNat m =>
      obtain ⟨c, t, hct, hd, _⟩ := natRepr_shape m
      refine ⟨c, t, hct, ?_, digit_not_rbracket hd⟩
      unfold isJsonWs
      rw [beq_false_of_pred hd (by decide), beq_false_of_pred hd (by decide),
          beq_false_of_pred hd (by decide), beq_false_of_pred hd (by decide)]
      rfl
    | negSucc m => exact ⟨'-', natRepr (m + 1), rfl, by decide, by decide⟩
  | jstr s => exact ⟨'"', escStr s ++ ['"'], rfl, by decide, by decide⟩
  | jarr l => cases l with
    | nil => exact ⟨'[', [']'], rfl, by decide, by decide⟩
    | cons v t =>
      exact ⟨'[', jNewline (lvl + 1) ++ dumpVal v (lvl + 1) ++ dumpMoreElems t (lvl + 1)
        ++ jNewline lvl ++ "]".data, rfl, by decide, by decide⟩
  | jobj m => cases m with
    | nil => exact ⟨lbrace, [rbrace], rfl, by decide, by decide⟩
    | cons k v t =>
      exact ⟨lbrace, jNewline (lvl + 1) ++ '"' :: escStr k ++ '"' :: ':' :: ' '
        :: dumpVal v (lvl + 1) ++ dumpMoreMembers t (lvl + 1) ++ jNewline lvl ++ [rbrace],
        rfl, by decide, by decide⟩

theorem lookup_none_insKey {k : List Char} {v : JVal} {m : JObj}
    (h : m.lookupKey k = none) : insKey k v m = JObj.cons k v m := by
  unfold insKey
  rw [h]

theorem jfuel_pos (v : JVal) : 1 ≤ jfuel v := by
  cases v with
  | jnull => exact Nat.le_refl 1
  | jbool b => exact Nat.le_refl 1
  | jnum n => exact Nat.le_refl 1
  | jstr s => exact Nat.le_refl 1
  | jarr l => show 1 ≤ lfuel l + 1; omega
  | jobj m => show 1 ≤ mfuel m + 1; omega

/-- The scanner recovers every well-formed value from its dump, given enough
fuel: the value parser, the array-element loop and the object-member loop,
proved together by induction on the fuel. -/
theorem parse_dump_aux : ∀ f : Nat,
    (∀ (v : JVal) (lvl : Nat) (rest : List Char), jfuel v ≤ f → jwf v = true →
      digitSafe rest = true → pVal f (dumpVal v lvl ++ rest) = some (v, rest)) ∧
    (∀ (v : JVal) (t : JList) (lvl : Nat) (rest : List Char),
      lfuel (JList.cons v t) ≤ f → lwf (JList.cons v t) = true →
      pElems f (jNewline (lvl + 1) ++ (dumpVal v (lvl + 1) ++ (dumpMoreElems t (lvl + 1)
        ++ (jNewline lvl ++ (']' :: rest))))) = some (JList.cons v t, rest)) ∧
    (∀ (k : List Char) (v : JVal) (t : JObj) (lvl : Nat) (rest : List Char),
      mfuel (JObj.cons k v t) ≤ f → mwf (JObj.cons k v t) = true →
      pMembers f (jNewline (lvl + 1) ++ ('"' :: (escStr k ++ ('"' :: ':' :: ' '
        :: (dumpVal v (lvl + 1) ++ (dumpMoreMembers t (lvl + 1) ++ (jNewline lvl
        ++ (rbrace :: rest)))))))) = some (JObj.cons k v t, rest)) := by
  intro f
  induction f with
  | zero =>
    refine ⟨?_, ?_, ?_⟩
    · intro v _ _ hf _ _
      have := jfuel_pos v
      omega
    · intro v t _ _ hf _
      have hf' : max (jfuel v) (lfuel t) + 1 ≤ 0 := hf
      omega
    · intro k v t _ _ hf _
      have hf' : max (jfuel v) (mfuel t) + 1 ≤ 0 := hf
      omega
  | succ f ih =>
    obtain ⟨ihV, ihE, ihM⟩ := ih
    refine ⟨?_, ?_, ?_⟩
    · intro v lvl rest hf hwf hds
      cases v with
      | jnull => rfl
      | jbool b => cases b <;> rfl
      | jnum n =>
        cases n with
        | ofNat m =>
          obtain ⟨c, t, hct, hd, _⟩ := natRepr_shape m
          have hdump : dumpVal (JVal.jnum (Int.ofNat m)) lvl ++ rest = c :: (t ++ rest) := by
            show natRepr m ++ rest = c :: (t ++ rest)
            rw [hct]
            rfl
          rw [hdump, pVal_digitHead hd]
          have hback : (c :: (t ++ rest)) = natRepr m ++ rest := by
            rw [hct]
            rfl
          rw [hback, pNat_natRepr m hds]
          rfl
        | negSucc m =>
          have hdump : dumpVal (JVal.jnum (Int.negSucc m)) lvl ++ rest
              = '-' :: (natRepr (m + 1) ++ rest) := rfl
          rw [hdump, pVal_minus, pNat_natRepr (m + 1) hds]
          have hneg : (-((m + 1 : Nat) : Int)) = Int.negSucc m := by
            rw [Int.negSucc_eq]
            omega
          simp only [Option.map_some']
          rw [hneg]
      | jstr s =>
        have hshape : dumpVal (JVal.jstr s) lvl ++ rest = '"' :: (escStr s ++ ('"' :: rest)) := by
          show ('"' :: (escStr s ++ ['"'])) ++ rest = _
          simp [List.append_assoc]
        rw [hshape, pVal_quote, pStrBody_roundtrip s rest]
        rfl
      | jarr l =>
        cases l with
        | nil => rfl
        | cons v t =>
          have hf' : lfuel (JList.cons v t) + 1 ≤ f + 1 := hf
          have hwf' : lwf (JList.cons v t) = true := hwf
          have hshape : dumpVal (JVal.jarr (JList.cons v t)) lvl ++ rest
              = '[' :: (jNewline (lvl + 1) ++ (dumpVal v (lvl + 1) ++ (dumpMoreElems t (lvl + 1)
                ++ (jNewline lvl ++ (']' :: rest))))) := by
            simp only [dumpVal]
            simp [List.append_assoc]
          rw [hshape, pVal_lbracket]
          obtain ⟨c0, t0, hct, hw0, hbr0⟩ := dumpVal_head v (lvl + 1)
          rw [show skipWs (jNewline (lvl + 1) ++ (dumpVal v (lvl + 1) ++ (dumpMoreElems t (lvl + 1)
              ++ (jNewline lvl ++ (']' :: rest)))))
              = c0 :: (t0 ++ (dumpMoreElems t (lvl + 1) ++ (jNewline lvl ++ (']' :: rest)))) from by
            rw [skipWs_append_ws (jNewline_ws (lvl + 1)), hct, List.cons_append, skipWs_cons hw0]]
          dsimp only
          rw [hbr0]
          simp only [Bool.false_eq_true, if_false]
          rw [ihE v t lvl rest (by omega) hwf']
          rfl
      | jobj m =>
        cases m with
        | nil => rfl
        | cons k v t =>
          have hf' : mfuel (JObj.cons k v t) + 1 ≤ f + 1 := hf
          have hwf' : mwf (JObj.cons k v t) = true := hwf
          have hshape : dumpVal (JVal.jobj (JObj.cons k v t)) lvl ++ rest
              = lbrace :: (jNewline (lvl + 1) ++ ('"' :: (escStr k ++ ('"' :: ':' :: ' '
                :: (dumpVal v (lvl + 1) ++ (dumpMoreMembers t (lvl + 1) ++ (jNewline lvl
                ++ (rbrace :: rest)))))))) := by
            simp only [dumpVal]
            simp [List.append_assoc]
          rw [hshape, pVal_lbrace]
          rw [show skipWs (jNewline (lvl + 1) ++ ('"' :: (escStr k ++ ('"' :: ':' :: ' '
              :: (dumpVal v (lvl + 1) ++ (dumpMoreMembers t (lvl + 1) ++ (jNewline lvl
              ++ (rbrace :: rest)))))))) = '"' :: (escStr k ++ ('"' :: ':' :: ' '
              :: (dumpVal v (lvl + 1) ++ (dumpMoreMembers t (lvl + 1) ++ (jNewline lvl
              ++ (rbrace :: rest)))))) from by
            rw [skipWs_append_ws (jNewline_ws (lvl + 1)), skipWs_cons (by decide)]]
          dsimp only
          rw [show (('"' : Char) == rbrace) = false from by decide]
          simp only [Bool.false_eq_true, if_false]
          rw [ihM k v t lvl rest (by omega) hwf']
          rfl
    · intro v t lvl rest hf hwf
      have hf' : max (jfuel v) (lfuel t) + 1 ≤ f + 1 := hf
      have hm := Nat.max_le.mp (Nat.le_of_succ_le_succ hf')
      have hwf' : (jwf v && lwf t) = true := hwf
      rw [Bool.and_eq_true] at hwf'
      cases t with
      | nil =>
        rw [pElems_step, pVal_ws_append (jNewline_ws (lvl + 1)),
            ihV v (lvl + 1) (dumpMoreElems JList.nil (lvl + 1) ++ (jNewline lvl ++ (']' :: rest)))
              hm.1 hwf'.1 (by rfl)]
        dsimp only
        rw [show skipWs (dumpMoreElems JList.nil (lvl + 1) ++ (jNewline lvl ++ (']' :: rest)))
            = ']' :: rest from by
          rw [show dumpMoreElems JList.nil (lvl + 1) = ([] : List Char) from rfl, List.nil_append,
              skipWs_append_ws (jNewline_ws lvl), skipWs_cons (by decide)]]
        dsimp only
        rw [show ((']' : Char) == ',') = false from by decide]
        simp only [Bool.false_eq_true, if_false]
        rw [show ((']' : Char) == ']') = true from by decide]
        simp only [if_true]
      | cons v' t' =>
        rw [pElems_step, pVal_ws_append (jNewline_ws (lvl + 1)),
            ihV v (lvl + 1)
              (dumpMoreElems (JList.cons v' t') (lvl + 1) ++ (jNewline lvl ++ (']' :: rest)))
              hm.1 hwf'.1 (by rfl)]
        dsimp only
        rw [show skipWs (dumpMoreElems (JList.cons v' t') (lvl + 1)
              ++ (jNewline lvl ++ (']' :: rest)))
            = ',' :: ((jNewline (lvl + 1) ++ (dumpVal v' (lvl + 1) ++ dumpMoreElems t' (lvl + 1)))
                ++ (jNewline lvl ++ (']' :: rest))) from by
          rw [show dumpMoreElems (JList.cons v' t') (lvl + 1)
              = ',' :: (jNewline (lvl + 1)
                  ++ (dumpVal v' (lvl + 1) ++ dumpMoreElems t' (lvl + 1))) from by
                simp only [dumpMoreElems]
                simp [List.append_assoc],
              List.cons_append, skipWs_cons (by decide)]]
        dsimp only
        rw [show ((',' : Char) == ',') = true from by decide]
        simp only [if_true]
        rw [show ((jNewline (lvl + 1) ++ (dumpVal v' (lvl + 1) ++ dumpMoreElems t' (lvl + 1)))
              ++ (jNewline lvl ++ (']' :: rest)))
            = jNewline (lvl + 1) ++ (dumpVal v' (lvl + 1) ++ (dumpMoreElems t' (lvl + 1)
              ++ (jNewline lvl ++ (']' :: rest)))) from by simp [List.append_assoc]]
        rw [ihE v' t' lvl rest (by omega) hwf'.2]
        rfl
    · intro k v t lvl rest hf hwf
      have hf' : max (jfuel v) (mfuel t) + 1 ≤ f + 1 := hf
      have hm := Nat.max_le.mp (Nat.le_of_succ_le_succ hf')
      have hwf' : (!(t.lookupKey k).isSome && jwf v && mwf t) = true := hwf
      simp only [Bool.and_eq_true] at hwf'
      have hnk : t.lookupKey k = none := by
        have h2 := hwf'.1.1
        rcases hl : t.lookupKey k with _ | w
        · rfl
        · rw [hl] at h2
          cases h2
      have hv : jwf v = true := hwf'.1.2
      have ht : mwf t = true := hwf'.2
      rw [pMembers_step,
          skipWs_append_ws (jNewline_ws (lvl + 1)), skipWs_cons (by decide)]
      dsimp only
      rw [show (('"' : Char) == '"') = true from by decide]
      simp only [if_true]
      rw [pStrBody_roundtrip]
      dsimp only
      rw [skipWs_cons (by decide)]
      dsimp only
      rw [show ((':' : Char) == ':') = true from by decide]
      simp only [if_true]
      rw [show (' ' :: (dumpVal v (lvl + 1) ++ (dumpMoreMembers t (lvl + 1) ++ (jNewline lvl
            ++ (rbrace :: rest)))))
          = [' '] ++ (dumpVal v (lvl + 1) ++ (dumpMoreMembers t (lvl + 1) ++ (jNewline lvl
            ++ (rbrace :: rest)))) from rfl,
          pVal_ws_append (by decide) f,
          ihV v (lvl + 1) (dumpMoreMembers t (lvl + 1) ++ (jNewline lvl ++ (rbrace :: rest)))
            hm.1 hv (by cases t <;> rfl)]
      dsimp only
      cases t with
      | nil =>
        rw [show skipWs (dumpMoreMembers JObj.nil (lvl + 1) ++ (jNewline lvl ++ (rbrace :: rest)))
            = rbrace :: rest from by
          rw [show dumpMoreMembers JObj.nil (lvl + 1) = ([] : List Char) from rfl, List.nil_append,
              skipWs_append_ws (jNewline_ws lvl), skipWs_cons (by decide)]]
        dsimp only
        rw [show ((rbrace : Char) == ',') = false from by decide]
        simp only [Bool.false_eq_true, if_false]
        rw [show ((rbrace : Char) == rbrace) = true from by decide]
        simp only [if_true]
      | cons k' v' t'' =>
        rw [show skipWs (dumpMoreMembers (JObj.cons k' v' t'') (lvl + 1)
              ++ (jNewline lvl ++ (rbrace :: rest)))
            = ',' :: ((jNewline (lvl + 1) ++ ('"' :: (escStr k' ++ ('"' :: ':' :: ' '
                :: (dumpVal v' (lvl + 1) ++ dumpMoreMembers t'' (lvl + 1))))))
                ++ (jNewline lvl ++ (rbrace :: rest))) from by
          rw [show dumpMoreMembers (JObj.cons k' v' t'') (lvl + 1)
              = ',' :: (jNewline (lvl + 1) ++ ('"' :: (escStr k' ++ ('"' :: ':' :: ' '
                  :: (dumpVal v' (lvl + 1) ++ dumpMoreMembers t'' (lvl + 1)))))) from by
                simp only [dumpMoreMembers]
                simp [List.append_assoc],
              List.cons_append, skipWs_cons (by decide)]]
        dsimp only
        rw [show ((',' : Char) == ',') = true from by decide]
        simp only [if_true]
        rw [show ((jNewline (lvl + 1) ++ ('"' :: (escStr k' ++ ('"' :: ':' :: ' '
              :: (dumpVal v' (lvl + 1) ++ dumpMoreMembers t'' (lvl + 1))))))
              ++ (jNewline lvl ++ (rbrace :: rest)))
            = jNewline (lvl + 1) ++ ('"' :: (escStr k' ++ ('"' :: ':' :: ' '
              :: (dumpVal v' (lvl + 1) ++ (dumpMoreMembers t'' (lvl + 1) ++ (jNewline lvl
              ++ (rbrace :: rest))))))) from by simp [List.append_assoc]]
        rw [ihM k' v' t'' lvl rest (by omega) ht]
        simp only [Option.map_some']
        rw [lookup_none_insKey hnk]

mutual
theorem jfuel_le_len : ∀ (v : JVal) (lvl : Nat), jfuel v ≤ (dumpVal v lvl).length
  | .jnull, lvl => by
    simp only [jfuel, dumpVal]
    decide
  | .jbool true, lvl => by
    simp only [jfuel, dumpVal]
    decide
  | .jbool false, lvl => by
    simp only [jfuel, dumpVal]
    decide
  | .jnum n, lvl => by
    simp only [jfuel, dumpVal]
    cases n with
    | ofNat m =>
      obtain ⟨c, t, hct, _, _⟩ := natRepr_shape m
      show 1 ≤ (natRepr m).length
      rw [hct]
      simp
    | negSucc m =>
      show 1 ≤ ('-' :: natRepr (m + 1)).length
      simp
  | .jstr s, lvl => by
    simp only [jfuel, dumpVal]
    simp
  | .jarr .nil, lvl => by
    simp only [jfuel, lfuel, dumpVal]
    decide
  | .jarr (.cons v t), lvl => by
    have h1 := jfuel_le_len v (lvl + 1)
    have h2 := lfuel_le_len t (lvl + 1)
    simp only [jfuel, lfuel, dumpVal, List.length_cons, List.length_append]
    have h4 : (jNewline (lvl + 1)).length = 2 * (lvl + 1) + 1 := by simp [jNewline]
    have h5 : (jNewline lvl).length = 2 * lvl + 1 := by simp [jNewline]
    have h6 : ("]".data : List Char).length = 1 := rfl
    omega
  | .jobj .nil, lvl => by
    simp only [jfuel, mfuel, dumpVal]
    decide
  | .jobj (.cons k v t), lvl => by
    have h1 := jfuel_le_len v (lvl + 1)
    have h2 := mfuel_le_len t (lvl + 1)
    simp only [jfuel, mfuel, dumpVal, List.length_cons, List.length_append]
    have h4 : (jNewline (lvl + 1)).length = 2 * (lvl + 1) + 1 := by simp [jNewline]
    have h5 : (jNewline lvl).length = 2 * lvl + 1 := by simp [jNewline]
    omega
theorem lfuel_le_len : ∀ (t : JList) (lvl : Nat), lfuel t ≤ (dumpMoreElems t lvl).length + 1
  | .nil, lvl => by
    simp only [lfuel, dumpMoreElems]
    decide
  | .cons v t, lvl => by
    have h1 := jfuel_le_len v lvl
    have h2 := lfuel_le_len t lvl
    simp only [lfuel, dumpMoreElems, List.length_cons, List.length_append]
    have h4 : (jNewline lvl).length = 2 * lvl + 1 := by simp [jNewline]
    omega
theorem mfuel_le_len : ∀ (t : JObj) (lvl : Nat), mfuel t ≤ (dumpMoreMembers t lvl).length + 1
  | .nil, lvl => by
    simp only [mfuel, dumpMoreMembers]
    decide
  | .cons k v t, lvl => by
    have h1 := jfuel_le_len v lvl
    have h2 := mfuel_le_len t lvl
    simp only [mfuel, dumpMoreMembers, List.length_cons, List.length_append]
    have h4 : (jNewline lvl).length = 2 * lvl + 1 := by simp [jNewline]
    omega
end

/-- A well-formed value survives the dump/load round trip unchanged. -/
theorem parse_dump_roundtrip {v : JVal} (h : jwf v = true) :
    parseJson (dumps v) = some v := by
  unfold parseJson dumps
  have hfuel : jfuel v ≤ 2 * (dumpVal v 0).length + 2 := by
    have := jfuel_le_len v 0
    omega
  have hp := (parse_dump_aux (2 * (dumpVal v 0).length + 2)).1 v 0 [] hfuel h (by rfl)
  rw [show dumpVal v 0 ++ ([] : List Char) = dumpVal v 0 from by simp] at hp
  rw [hp]
  rfl

/-! ## Acceptance of the full `json.load` grammar, and Python equality -/

/-- Acceptance scan of a JSON string body (after the opening quote), exactly
as `json.load` accepts it: any `\uXXXX` with four hex digits is legal (lone
surrogates included), the short escapes, no raw control characters.  Returns
the rest after the closing quote. -/
def jaccStr : Nat → List Char → Option (List Char)
  | 0, _ => none
  | _ + 1, [] => none
  | f + 1, c :: r =>
    if c == '"' then some r
    else if c == '\\' then
      match r with
      | 'u' :: h1 :: h2 :: h3 :: h4 :: r2 =>
        if (hexDigVal h1).isSome && (hexDigVal h2).isSome && (hexDigVal h3).isSome
            && (hexDigVal h4).isSome then jaccStr f r2
        else none
      | e :: r2 => if (escShort e).isSome then jaccStr f r2 else none
      | [] => none
    else if decide (c.toNat < 32) then none
    else jaccStr f r

def jaccStrBody (s : List Char) : Option (List Char) := jaccStr (s.length + 1) s

/-- The optional fraction and exponent of a number token, per the `NUMBER_RE`
grammar of `json.decoder`: `(\.\d+)?([eE][-+]?\d+)?`. -/
def jaccNumTail (s : List Char) : List Char :=
  let t1 := match s with
    | '.' :: u => if isDigitCh (u.headD ' ') then u.dropWhile isDigitCh else s
    | _ => s
  match t1 with
  | e :: u =>
    if e == 'e' || e == 'E' then
      let u2 := match u with
        | '+' :: w => w
        | '-' :: w => w
        | _ => u
      if isDigitCh (u2.headD ' ') then u2.dropWhile isDigitCh else t1
    else t1
  | [] => t1

/-- Acceptance of a number token (`-?(0|[1-9]\d*)` and the optional tail). -/
def jaccNum : List Char → Option (List Char)
  | '-' :: r =>
    (match r with
     | c :: r2 =>
       if c == '0' then some (jaccNumTail r2)
       else if isDigitCh c then some (jaccNumTail ((c :: r2).dropWhile isDigitCh))
       else none
     | [] => none)
  | c :: r2 =>
    if c == '0' then some (jaccNumTail r2)
    else if isDigitCh c then some (jaccNumTail ((c :: r2).dropWhile isDigitCh))
    else none
  | [] => none

mutual
/-- Acceptance scan of one JSON value, covering the full grammar `json.load`
accepts — including floats, `NaN`, `Infinity`, `-Infinity` and lone-surrogate
escapes that the value model does not represent.  `some rest` exactly when
`json.load` would scan a value here. -/
def jaccVal : Nat → List Char → Option (List Char)
  | 0, _ => none
  | f + 1, s =>
    match skipWs s with
    | [] => none
    | c :: r =>
      if c == '"' then jaccStrBody r
      else if c == '[' then
        match skipWs r with
        | [] => none
        | c2 :: r2 => if c2 == ']' then some r2 else jaccElems f r
      else if c == lbrace then
        match skipWs r with
        | [] => none
        | c2 :: _ => if c2 == rbrace then some (skipWs r).tail else jaccMembers f r
      else if c == 't' then
        match r with
        | 'r' :: 'u' :: 'e' :: r2 => some r2
        | _ => none
      else if c == 'f' then
        match r with
        | 'a' :: 'l' :: 's' :: 'e' :: r2 => some r2
        | _ => none
      else if c == 'n' then
        match r with
        | 'u' :: 'l' :: 'l' :: r2 => some r2
        | _ => none
      else if c == 'N' then
        match r with
        | 'a' :: 'N' :: r2 => some r2
        | _ => none
      else if c == 'I' then
        match r with
        | 'n' :: 'f' :: 'i' :: 'n' :: 'i' :: 't' :: 'y' :: r2 => some r2
        | _ => none
      else if c == '-' then
        match r with
        | 'I' :: 'n' :: 'f' :: 'i' :: 'n' :: 'i' :: 't' :: 'y' :: r2 => some r2
        | _ => jaccNum (c :: r)
      else jaccNum (c :: r)
def jaccElems : Nat → List Char → Option (List Char)
  | 0, _ => none
  | f + 1, s =>
    match jaccVal f s with
    | none => none
    | some r1 =>
      match skipWs r1 with
      | [] => none
      | c2 :: r2 =>
        if c2 == ',' then jaccElems f r2
        else if c2 == ']' then some r2
        else none
def jaccMembers : Nat → List Char → Option (List Char)
  | 0, _ => none
  | f + 1, s =>
    match skipWs s with
    | [] => none
    | c :: r =>
      if c == '"' then
        match jaccStrBody r with
        | none => none
        | some r1 =>
          match skipWs r1 with
          | [] => none
          | c3 :: r3 =>
            if c3 == ':' then
              match jaccVal f r3 with
              | none => none
              | some r4 =>
                match skipWs r4 with
                | [] => none
                | c5 :: r5 =>
                  if c5 == ',' then jaccMembers f r5
                  else if c5 == rbrace then some r5
                  else none
            else none
      else none
end

/-- Whether `json.load` accepts the document: one value and trailing
whitespace.  Complements `parseJson`, which additionally produces the value
when it lies in the modelled (float-free, surrogate-free) fragment. -/
def jaccAll (s : List Char) : Bool :=
  match jaccVal (2 * s.length + 2) s with
  | some rest => rest.all isJsonWs
  | none => false

mutual
/-- Python `==` on the values `json.load` produces, as `check_for_updates`
compares them: object comparison ignores member order, and a `bool` equals
the `int` of its truth value (`True == 1`). -/
def pyEqV : Nat → JVal → JVal → Bool
  | 0, _, _ => false
  | f + 1, a, b =>
    match a, b with
    | .jnull, .jnull => true
    | .jbool x, .jbool y => x == y
    | .jbool x, .jnum n => n == (if x then 1 else 0)
    | .jnum n, .jbool y => n == (if y then 1 else 0)
    | .jnum m, .jnum n => m == n
    | .jstr s, .jstr t => s == t
    | .jarr l, .jarr m => pyEqL f l m
    | .jobj m, .jobj o => pyEqSub f m o && pyEqSub f o m
    | _, _ => false
def pyEqL : Nat → JList → JList → Bool
  | 0, _, _ => false
  | _ + 1, .nil, .nil => true
  | f + 1, .cons v t, .cons w u => pyEqV f v w && pyEqL f t u
  | _ + 1, _, _ => false
def pyEqSub : Nat → JObj → JObj → Bool
  | 0, _, _ => false
  | _ + 1, .nil, _ => true
  | f + 1, .cons k v t, o =>
    (match o.lookupKey k with
     | some w => pyEqV f v w
     | none => false) && pyEqSub f t o
end

/-- Python `==` on two store documents (ample fuel for both depths). -/
def pyEqJ (a b : JVal) : Bool := pyEqV (jfuel a + jfuel b) a b

/-! ## The application state and the store operations -/

/-- A snapshot of the store file: its content (`none` when the file does not
exist) and its modification time. -/
structure FileState where
  file : Option (List Char)
  mtime : Nat
deriving DecidableEq

/-- The session state fields that `load_slides`, `save_slides` and
`check_for_updates` touch.  `saving` starts absent and is read through
`st.session_state.get('saving', False)`, so it is modelled as a `Bool` that
starts `false`. -/
structure AppState where
  slides : JVal
  file_last_modified : Nat
  last_refresh : Nat
  last_checked : Nat
  saving : Bool
deriving DecidableEq

/-- Model of `load_slides` (app.py lines 149-159): when the file exists, read
and parse it; a `json.load` failure (`jaccAll` false) lands in the `except`,
which resets the in-memory list to `[]` (the mtime line is never reached).
When the file does not exist nothing at all happens.  No error is signalled
either way: the function only returns the new state.  `none` marks the one
case outside the value model: `json.load` succeeds but the value (a float,
`NaN`, `Infinity` or a lone-surrogate string) is not a `JVal`. -/
def load_slides (fs : FileState) (now : Nat) (st : AppState) : Option AppState :=
  match fs.file with
  | none => some st
  | some content =>
    if jaccAll content then
      match parseJson content with
      | some v =>
        some { st with slides := v, file_last_modified := fs.mtime, last_refresh := now }
      | none => none
    else some { st with slides := JVal.jarr JList.nil }

/-- Model of `save_slides` (lines 161-181).  `ok` is whether the
`open`/`json.dump` succeeded.  On success the file now holds the serialized
list, the mtime advances, the `saving` flag (set before the write) is cleared
and `True` is returned; on failure the exception is reduced to an error
message and a `False` return, and the `saving` flag is left set. -/
def save_slides (ok : Bool) (newMtime now : Nat) (st : AppState) (fs : FileState) :
    Bool × AppState × FileState :=
  if ok then
    (true,
     { st with file_last_modified := newMtime, last_refresh := now, saving := false },
     { file := some (dumps st.slides), mtime := newMtime })
  else
    (false, { st with saving := true }, fs)

/-- Model of `check_for_updates` (lines 187-214): reload and replace the
in-memory list only when the file exists, its mtime is strictly newer than
the last observed one, no save is in flight, and the read content differs —
by Python `==`, which ignores object key order — from the in-memory list; a
`json.load` failure (`jaccAll` false) lands in the `except` and reports
`False` with the state untouched.  A file whose value lies outside the value
model (`jaccAll` true but `parseJson` none) is treated as the no-op branch;
theorems about this function carry a hypothesis placing such snapshots
outside their scope. -/
def check_for_updates (fs : FileState) (now : Nat) (st : AppState) : Bool × AppState :=
  match fs.file with
  | none => (false, st)
  | some content =>
    if decide (st.file_last_modified < fs.mtime) && !st.saving then
      if jaccAll content then
        match parseJson content with
        | none => (false, st)
        | some updated =>
          if pyEqJ updated st.slides then
            (false, { st with file_last_modified := fs.mtime, last_checked := now })
          else
            (true,
             { st with
                slides := updated
                file_last_modified := fs.mtime
                last_refresh := now
                last_checked := now })
      else (false, st)
    else (false, st)

/-- Model of the confirm branch of `display_delete_confirmation` (lines
466-473): `st.session_state.slides.pop(index)` followed by `save_slides`.
`none` models the uncaught exception when the in-memory document is not a
list or the index is out of range. -/
def confirm_delete (i : Nat) (ok : Bool) (newMtime now : Nat) (st : AppState)
    (fs : FileState) : Option (AppState × FileState) :=
  match st.slides with
  | JVal.jarr l =>
    if i < l.length then
      some ((save_slides ok newMtime now { st with slides := JVal.jarr (l.eraseIdx i) } fs).2)
    else none
  | _ => none

/-- The record `handle_upload` builds (lines 495-505), given the current
record count.  Python truthiness on strings is emptiness. -/
def uploadRecord (optGoogle : Bool) (url title description uploader dateStr tsStr : List Char)
    (count : Nat) : JVal :=
  JVal.jobj (
    JObj.cons "id".data (JVal.jnum ((count : Int) + 1)) (
    JObj.cons "title".data (JVal.jstr (if title ≠ [] then title else extract_title_from_url url)) (
    JObj.cons "url".data (JVal.jstr url) (
    JObj.cons "presentation_id".data
      (JVal.jstr (if optGoogle then extract_google_slides_id url else url)) (
    JObj.cons "type".data (JVal.jstr (if optGoogle then "google".data else "link".data)) (
    JObj.cons "uploader".data (JVal.jstr (if uploader ≠ [] then uploader else "Anonymous".data)) (
    JObj.cons "date".data (JVal.jstr dateStr) (
    JObj.cons "description".data (JVal.jstr description) (
    JObj.cons "last_modified".data (JVal.jstr tsStr) JObj.nil)))))))))

/-- Model of `handle_upload` (lines 480-518): an empty URL reports an error
and returns `False` without touching the store; otherwise the new record is
appended with `id = len(slides) + 1` and the store is saved, and `True` is
returned regardless of the save outcome.  `none` models the uncaught
exception when the in-memory document is not a list. -/
def handle_upload (optGoogle : Bool) (url title description uploader dateStr tsStr : List Char)
    (ok : Bool) (newMtime now : Nat) (st : AppState) (fs : FileState) :
    Option (Bool × AppState × FileState) :=
  if url = [] then some (false, st, fs)
  else
    match st.slides with
    | JVal.jarr l =>
      some (true, (save_slides ok newMtime now
        { st with slides := JVal.jarr (l.push (uploadRecord optGoogle url title description
            uploader dateStr tsStr l.length)) } fs).2)
    | _ => none

/-- A sequence of poller checks, folding `check_for_updates` over successive
file snapshots. -/
def pollRun : List (FileState × Nat) → AppState → AppState
  | [], st => st
  | (fs, now) :: rest, st => pollRun rest (check_for_updates fs now st).2

theorem check_none {fs : FileState} {now : Nat} {st : AppState} (h : fs.file = none) :
    check_for_updates fs now st = (false, st) := by
  unfold check_for_updates
  rw [h]

theorem check_stale {fs : FileState} {now : Nat} {st : AppState} {content : List Char}
    (h : fs.file = some content)
    (hc : (decide (st.file_last_modified < fs.mtime) && !st.saving) = false) :
    check_for_updates fs now st = (false, st) := by
  unfold check_for_updates
  rw [h]
  dsimp only
  rw [hc]
  simp

theorem check_loadfail {fs : FileState} {now : Nat} {st : AppState} {content : List Char}
    (h : fs.file = some content)
    (hc : (decide (st.file_last_modified < fs.mtime) && !st.saving) = true)
    (ha : jaccAll content = false) :
    check_for_updates fs now st = (false, st) := by
  unfold check_for_updates
  rw [h]
  dsimp only
  rw [hc, ha]
  simp

theorem check_badparse {fs : FileState} {now : Nat} {st : AppState} {content : List Char}
    (h : fs.file = some content)
    (hc : (decide (st.file_last_modified < fs.mtime) && !st.saving) = true)
    (ha : jaccAll content = true) (hp : parseJson content = none) :
    check_for_updates fs now st = (false, st) := by
  unfold check_for_updates
  rw [h]
  dsimp only
  rw [hc, ha, hp]
  simp

theorem check_same {fs : FileState} {now : Nat} {st : AppState} {content : List Char} {v : JVal}
    (h : fs.file = some content)
    (hc : (decide (st.file_last_modified < fs.mtime) && !st.saving) = true)
    (ha : jaccAll content = true) (hp : parseJson content = some v)
    (hv : pyEqJ v st.slides = true) :
    check_for_updates fs now st
      = (false, { st with file_last_modified := fs.mtime, last_checked := now }) := by
  unfold check_for_updates
  rw [h]
  dsimp only
  rw [hc, ha, hp]
  simp [hv]

theorem check_diff {fs : FileState} {now : Nat} {st : AppState} {content : List Char} {v : JVal}
    (h : fs.file = some content)
    (hc : (decide (st.file_last_modified < fs.mtime) && !st.saving) = true)
    (ha : jaccAll content = true) (hp : parseJson content = some v)
    (hv : pyEqJ v st.slides = false) :
    check_for_updates fs now st
      = (true,
         { st with
            slides := v
            file_last_modified := fs.mtime
            last_refresh := now
            last_checked := now }) := by
  unfold check_for_updates
  rw [h]
  dsimp only
  rw [hc, ha, hp]
  simp [hv]

theorem check_saving {fs : FileState} {now : Nat} {st : AppState} (h : st.saving = true) :
    check_for_updates fs now st = (false, st) := by
  rcases hfile : fs.file with _ | content
  · exact check_none hfile
  · exact check_stale hfile (by rw [h]; simp)

theorem pollRun_saving {st : AppState} (h : st.saving = true) :
    ∀ polls : List (FileState × Nat), pollRun polls st = st := by
  intro polls
  induction polls with
  | nil => rfl
  | cons p rest ih =>
    show pollRun rest (check_for_updates p.1 p.2 st).2 = st
    rw [check_saving h]
    exact ih

/-! ## Claims about the store operations -/

theorem eraseIdx_len : ∀ (l : JList) (i : Nat), i < l.length →
    (l.eraseIdx i).length = l.length - 1
  | .nil, i, h => by
    have h0 : (JList.nil).length = 0 := rfl
    omega
  | .cons v t, 0, h => by
    show t.length = t.length + 1 - 1
    omega
  | .cons v t, n + 1, h => by
    have hl : (JList.cons v t).length = t.length + 1 := rfl
    have hn : n < t.length := by omega
    show (t.eraseIdx n).length + 1 = (t.length + 1) - 1
    rw [eraseIdx_len t n hn]
    omega

theorem eraseIdx_getIdx_lt : ∀ (l : JList) (i j : Nat), j < i →
    (l.eraseIdx i).getIdx j = l.getIdx j
  | .nil, i, j, h => rfl
  | .cons v t, 0, j, h => by omega
  | .cons v t, n + 1, 0, h => rfl
  | .cons v t, n + 1, m + 1, h => by
    show (t.eraseIdx n).getIdx m = t.getIdx m
    exact eraseIdx_getIdx_lt t n m (by omega)

theorem eraseIdx_getIdx_ge : ∀ (l : JList) (i j : Nat), i ≤ j →
    (l.eraseIdx i).getIdx j = l.getIdx (j + 1)
  | .nil, i, j, h => rfl
  | .cons v t, 0, j, h => rfl
  | .cons v t, n + 1, 0, h => by omega
  | .cons v t, n + 1, m + 1, h => by
    show (t.eraseIdx n).getIdx m = t.getIdx (m + 1)
    exact eraseIdx_getIdx_ge t n m (by omega)

/-- C2 counterexample: with the store file missing and a non-empty in-memory
list, `load_slides` leaves the list untouched instead of resetting it to the
empty list, refuting the claim that any load failure resets the list. -/
theorem c2_counterexample :
    load_slides ⟨none, 5⟩ 7 ⟨JVal.jarr (JList.cons JVal.jnull JList.nil), 0, 0, 0, false⟩
      = some ⟨JVal.jarr (JList.cons JVal.jnull JList.nil), 0, 0, 0, false⟩ ∧
    JVal.jarr (JList.cons JVal.jnull JList.nil) ≠ JVal.jarr JList.nil := by
  constructor
  · rfl
  · decide

/-- C2 as amended: when the store file is missing, `load_slides` leaves the
whole state unchanged; when the file exists but `json.load` rejects it, the
bare `except` resets the in-memory list to the empty list (and nothing beyond
the returned state signals the failure either way). -/
theorem c2_amended (fs : FileState) (now : Nat) (st : AppState) :
    (fs.file = none → load_slides fs now st = some st) ∧
    (∀ content, fs.file = some content → jaccAll content = false →
      load_slides fs now st = some { st with slides := JVal.jarr JList.nil }) := by
  constructor
  · intro h
    unfold load_slides
    rw [h]
  · intro content hc ha
    unfold load_slides
    rw [hc]
    dsimp only
    rw [ha]
    rfl

/-- C2 amended-claim witness at a concrete state, a missing file and a
truncated document `[` that `json.load` rejects. -/
theorem c2_amended_witness :
    ((⟨none, 0⟩ : FileState).file = none →
      load_slides ⟨none, 0⟩ 0 ⟨JVal.jnull, 0, 0, 0, false⟩
        = some ⟨JVal.jnull, 0, 0, 0, false⟩) ∧
    (∀ content, (⟨none, 0⟩ : FileState).file = some content → jaccAll content = false →
      load_slides ⟨none, 0⟩ 0 ⟨JVal.jnull, 0, 0, 0, false⟩
        = some { (⟨JVal.jnull, 0, 0, 0, false⟩ : AppState) with
                  slides := JVal.jarr JList.nil }) :=
  c2_amended ⟨none, 0⟩ 0 ⟨JVal.jnull, 0, 0, 0, false⟩

/-- C4: loading a store file `json.load` accepts with a representable value
and saving without modification writes exactly the dump of the loaded record
set, and that dump parses back to the very same record set — the saved store
is equivalent to the one read. -/
theorem c4_load_save_roundtrip (fs : FileState) (now : Nat) (st : AppState)
    (content : List Char) (v : JVal) (newMtime now2 : Nat) (hc : fs.file = some content)
    (ha : jaccAll content = true) (hv : parseJson content = some v) (hwf : jwf v = true) :
    ∃ st2, load_slides fs now st = some st2 ∧ st2.slides = v ∧
      (save_slides true newMtime now2 st2 fs).2.2.file = some (dumps v) ∧
      parseJson (dumps v) = some v := by
  have hload : load_slides fs now st
      = some { st with slides := v, file_last_modified := fs.mtime, last_refresh := now } := by
    unfold load_slides
    rw [hc]
    dsimp only
    rw [ha, hv]
    rfl
  refine ⟨_, hload, rfl, rfl, parse_dump_roundtrip hwf⟩

/-- C5: confirming a delete at a valid position removes exactly that record,
shifts every later record down one position, and shrinks the store by one. -/
theorem c5_delete_shifts (l : JList) (i : Nat) (ok : Bool) (newMtime now : Nat)
    (st : AppState) (fs : FileState) (hi : i < l.length) (hst : st.slides = JVal.jarr l) :
    ∃ st' fs', confirm_delete i ok newMtime now st fs = some (st', fs') ∧
      st'.slides = JVal.jarr (l.eraseIdx i) ∧
      (l.eraseIdx i).length = l.length - 1 ∧
      (∀ j, j < i → (l.eraseIdx i).getIdx j = l.getIdx j) ∧
      (∀ j, i ≤ j → (l.eraseIdx i).getIdx j = l.getIdx (j + 1)) := by
  unfold confirm_delete
  rw [hst]
  dsimp only
  rw [if_pos hi]
  refine ⟨_, _, rfl, ?_, eraseIdx_len l i hi,
    fun j hj => eraseIdx_getIdx_lt l i j hj, fun j hj => eraseIdx_getIdx_ge l i j hj⟩
  cases ok <;> rfl

/-- C5 witness: deleting position 0 of a concrete two-record store. -/
theorem c5_delete_shifts_witness :
    ∃ st' fs', confirm_delete 0 true 3 3
        ⟨JVal.jarr (JList.cons (JVal.jnum 1) (JList.cons (JVal.jnum 2) JList.nil)), 0, 0, 0, false⟩
        ⟨none, 0⟩ = some (st', fs') ∧
      st'.slides = JVal.jarr ((JList.cons (JVal.jnum 1)
        (JList.cons (JVal.jnum 2) JList.nil)).eraseIdx 0) ∧
      ((JList.cons (JVal.jnum 1) (JList.cons (JVal.jnum 2) JList.nil)).eraseIdx 0).length
        = (JList.cons (JVal.jnum 1) (JList.cons (JVal.jnum 2) JList.nil)).length - 1 ∧
      (∀ j, j < 0 → ((JList.cons (JVal.jnum 1) (JList.cons (JVal.jnum 2) JList.nil)).eraseIdx 0).getIdx j
        = (JList.cons (JVal.jnum 1) (JList.cons (JVal.jnum 2) JList.nil)).getIdx j) ∧
      (∀ j, 0 ≤ j → ((JList.cons (JVal.jnum 1) (JList.cons (JVal.jnum 2) JList.nil)).eraseIdx 0).getIdx j
        = (JList.cons (JVal.jnum 1) (JList.cons (JVal.jnum 2) JList.nil)).getIdx (j + 1)) :=
  c5_delete_shifts (JList.cons (JVal.jnum 1) (JList.cons (JVal.jnum 2) JList.nil)) 0 true 3 3
    ⟨JVal.jarr (JList.cons (JVal.jnum 1) (JList.cons (JVal.jnum 2) JList.nil)), 0, 0, 0, false⟩
    ⟨none, 0⟩ (by decide) rfl

/-- C4 witness: a concrete one-record store file round trips through load and
save. -/
theorem c4_load_save_roundtrip_witness :
    ∃ st2, load_slides ⟨some (dumps (JVal.jarr (JList.cons (JVal.jobj (JObj.cons "id".data
        (JVal.jnum 1) JObj.nil)) JList.nil))), 3⟩ 4 ⟨JVal.jnull, 0, 0, 0, false⟩ = some st2 ∧
      st2.slides = JVal.jarr (JList.cons (JVal.jobj (JObj.cons "id".data
        (JVal.jnum 1) JObj.nil)) JList.nil) ∧
      (save_slides true 9 10 st2 ⟨some (dumps (JVal.jarr (JList.cons (JVal.jobj
          (JObj.cons "id".data (JVal.jnum 1) JObj.nil)) JList.nil))), 3⟩).2.2.file
        = some (dumps (JVal.jarr (JList.cons (JVal.jobj (JObj.cons "id".data
            (JVal.jnum 1) JObj.nil)) JList.nil))) ∧
      parseJson (dumps (JVal.jarr (JList.cons (JVal.jobj (JObj.cons "id".data
          (JVal.jnum 1) JObj.nil)) JList.nil)))
        = some (JVal.jarr (JList.cons (JVal.jobj (JObj.cons "id".data
            (JVal.jnum 1) JObj.nil)) JList.nil)) :=
  c4_load_save_roundtrip _ 4 ⟨JVal.jnull, 0, 0, 0, false⟩ _ _ 9 10 rfl (by decide) (by decide)
    (by decide)

/-- C7: on file snapshots within the value model, the poller replaces the
in-memory record list exactly when the file exists with a strictly newer
mtime, no local save is in flight, `json.load` accepts the content, and the
read value differs (by Python `==`) from the in-memory list; in every other
case the list is left with its old records. -/
theorem c7_poller_replaces_iff (fs : FileState) (now : Nat) (st : AppState)
    (hm : ∀ content, fs.file = some content → jaccAll content = true →
      (parseJson content).isSome) :
    ((check_for_updates fs now st).2.slides ≠ st.slides →
      ∃ content v, fs.file = some content ∧ st.file_last_modified < fs.mtime ∧
        st.saving = false ∧ jaccAll content = true ∧ parseJson content = some v ∧
        pyEqJ v st.slides = false ∧
        (check_for_updates fs now st).2.slides = v ∧ (check_for_updates fs now st).1 = true) ∧
    (∀ content v, fs.file = some content → st.file_last_modified < fs.mtime →
      st.saving = false → jaccAll content = true → parseJson content = some v →
      pyEqJ v st.slides = false →
      (check_for_updates fs now st).2.slides = v ∧ (check_for_updates fs now st).1 = true) := by
  clear hm
  constructor
  · intro hne
    rcases hfile : fs.file with _ | content
    · rw [check_none hfile] at hne
      exact absurd rfl hne
    · by_cases hcond : (decide (st.file_last_modified < fs.mtime) && !st.saving) = true
      · by_cases ha : jaccAll content = true
        · rcases hp : parseJson content with _ | v
          · rw [check_badparse hfile hcond ha hp] at hne
            exact absurd rfl hne
          · by_cases hv : pyEqJ v st.slides = true
            · rw [check_same hfile hcond ha hp hv] at hne
              exact absurd rfl hne
            · simp only [Bool.not_eq_true] at hv
              have hsplit := Bool.and_eq_true _ _ |>.mp hcond
              refine ⟨content, v, rfl, of_decide_eq_true hsplit.1, by simpa using hsplit.2,
                ha, hp, hv, ?_, ?_⟩
              · rw [check_diff hfile hcond ha hp hv]
              · rw [check_diff hfile hcond ha hp hv]
        · simp only [Bool.not_eq_true] at ha
          rw [check_loadfail hfile hcond ha] at hne
          exact absurd rfl hne
      · rw [check_stale hfile (by simpa using hcond)] at hne
        exact absurd rfl hne
  · intro content v hfile hmt hsv ha hp hv
    have hcond : (decide (st.file_last_modified < fs.mtime) && !st.saving) = true := by
      rw [hsv]
      simp [hmt]
    rw [check_diff hfile hcond ha hp hv]
    exact ⟨rfl, rfl⟩

/-- C7 witness at a concrete file snapshot and state. -/
theorem c7_poller_replaces_iff_witness :
    ((check_for_updates ⟨some "[1]".data, 5⟩ 9 ⟨JVal.jarr JList.nil, 0, 0, 0, false⟩).2.slides
        ≠ (⟨JVal.jarr JList.nil, 0, 0, 0, false⟩ : AppState).slides →
      ∃ content v, (⟨some "[1]".data, 5⟩ : FileState).file = some content ∧
        (⟨JVal.jarr JList.nil, 0, 0, 0, false⟩ : AppState).file_last_modified
          < (⟨some "[1]".data, 5⟩ : FileState).mtime ∧
        (⟨JVal.jarr JList.nil, 0, 0, 0, false⟩ : AppState).saving = false ∧
        jaccAll content = true ∧ parseJson content = some v ∧
        pyEqJ v (⟨JVal.jarr JList.nil, 0, 0, 0, false⟩ : AppState).slides = false ∧
        (check_for_updates ⟨some "[1]".data, 5⟩ 9
          ⟨JVal.jarr JList.nil, 0, 0, 0, false⟩).2.slides = v ∧
        (check_for_updates ⟨some "[1]".data, 5⟩ 9
          ⟨JVal.jarr JList.nil, 0, 0, 0, false⟩).1 = true) ∧
    (∀ content v, (⟨some "[1]".data, 5⟩ : FileState).file = some content →
      (⟨JVal.jarr JList.nil, 0, 0, 0, false⟩ : AppState).file_last_modified
        < (⟨some "[1]".data, 5⟩ : FileState).mtime →
      (⟨JVal.jarr JList.nil, 0, 0, 0, false⟩ : AppState).saving = false →
      jaccAll content = true → parseJson content = some v →
      pyEqJ v (⟨JVal.jarr JList.nil, 0, 0, 0, false⟩ : AppState).slides = false →
      (check_for_updates ⟨some "[1]".data, 5⟩ 9
        ⟨JVal.jarr JList.nil, 0, 0, 0, false⟩).2.slides = v ∧
      (check_for_updates ⟨some "[1]".data, 5⟩ 9
        ⟨JVal.jarr JList.nil, 0, 0, 0, false⟩).1 = true) :=
  c7_poller_replaces_iff ⟨some "[1]".data, 5⟩ 9 ⟨JVal.jarr JList.nil, 0, 0, 0, false⟩
    (fun content hc _ => by
      have hce : "[1]".data = content := by
        injection hc
      rw [← hce]
      decide)

/-- C10: a failed save returns `False` with the `saving` flag left set, and
from then on any sequence of poller checks — whatever newer file snapshots
they observe — leaves the in-memory record list (and the stuck flag)
unchanged. -/
theorem c10_failed_save_blocks_poller (newMtime now : Nat) (st : AppState) (fs : FileState)
    (polls : List (FileState × Nat)) :
    (save_slides false newMtime now st fs).1 = false ∧
    (save_slides false newMtime now st fs).2.1.saving = true ∧
    pollRun polls (save_slides false newMtime now st fs).2.1
      = (save_slides false newMtime now st fs).2.1 ∧
    (pollRun polls (save_slides false newMtime now st fs).2.1).slides = st.slides := by
  refine ⟨rfl, rfl, pollRun_saving rfl polls, ?_⟩
  rw [pollRun_saving rfl polls]
  rfl

/-- C3 witness: both URL shapes at the concrete identifier `abc`. -/
theorem c3_wellformed_urls_witness :
    extract_google_slides_id
        ("https://docs.google.com/presentation/d/".data ++ "abc".data ++ "/edit".data)
      = "abc".data ∧
    extract_google_slides_id
        ("https://drive.google.com/open?id=".data ++ "abc".data) = "abc".data :=
  c3_wellformed_urls "abc".data (by decide) (by decide)

/-- The `id` field of a record, when the record is an object. -/
def idField : JVal → Option JVal
  | JVal.jobj m => m.lookupKey "id".data
  | _ => none

/-- A fresh session: empty in-memory list, no store file yet. -/
def demoState0 : AppState := ⟨JVal.jarr JList.nil, 0, 0, 0, false⟩

def demoFs0 : FileState := ⟨none, 0⟩

/-- Append two records, delete the first, append a third: the concrete
append/delete sequence exhibiting `id` reuse. -/
def demoRun : Option AppState :=
  (handle_upload false "u1".data "t1".data [] [] [] [] true 1 1 demoState0 demoFs0).bind
    (fun r1 => (handle_upload false "u2".data "t2".data [] [] [] [] true 2 2 r1.2.1 r1.2.2).bind
      (fun r2 => (confirm_delete 0 true 3 3 r2.2.1 r2.2.2).bind
        (fun r3 => (handle_upload false "u3".data "t3".data [] [] [] [] true 4 4 r3.1 r3.2).map
          (fun r4 => r4.2.1))))

/-- The `id` fields of the first two records of the store. -/
def firstTwoIds (st : AppState) : Option (Option JVal × Option JVal) :=
  match st.slides with
  | JVal.jarr (JList.cons a (JList.cons b _)) => some (idField a, idField b)
  | _ => none

/-- C6: every successful upload appends a record whose `id` is the current
record count plus one; and after the concrete sequence append, append,
delete-at-0, append, the two records left in the store carry the same `id`
(both `2`), so `id` uniqueness is not enforced. -/
theorem c6_id_assignment_not_unique :
    (∀ (optGoogle : Bool) (url title description uploader dateStr tsStr : List Char)
        (ok : Bool) (newMtime now : Nat) (st : AppState) (fs : FileState) (l : JList),
      url ≠ [] → st.slides = JVal.jarr l →
      ∃ st' fs', handle_upload optGoogle url title description uploader dateStr tsStr
          ok newMtime now st fs = some (true, st', fs') ∧
        st'.slides = JVal.jarr (l.push (uploadRecord optGoogle url title description
          uploader dateStr tsStr l.length)) ∧
        idField (uploadRecord optGoogle url title description uploader dateStr tsStr l.length)
          = some (JVal.jnum ((l.length : Int) + 1))) ∧
    Option.bind demoRun firstTwoIds
      = some (some (JVal.jnum 2), some (JVal.jnum 2)) := by
  constructor
  · intro optGoogle url title description uploader dateStr tsStr ok newMtime now st fs l
      hurl hst
    unfold handle_upload
    rw [if_neg hurl, hst]
    dsimp only
    cases ok
    · exact ⟨_, _, rfl, rfl, rfl⟩
    · exact ⟨_, _, rfl, rfl, rfl⟩
  · decide
